import Mathlib

/-!
Verification development for `scripts/sync-langs.py`.

The script synchronizes `lang-*` feature lists between a remote catalog
(crates.io metadata for the `arborium` crate), two generated `Cargo.toml`
documents, and a hand-authored `builtin.rs` document.

Strings are modelled as `List Char` (Python `str` is a sequence of code
points).  The regex substitution in `replace_section` uses the pattern
`(re.escape(start_marker)\n).*?(\nre.escape(end_marker))` with `re.DOTALL`:
both markers are escaped, so matching is literal-substring matching; the
non-greedy `.*?` takes the shortest interior; `re.subn` without a count
replaces every non-overlapping occurrence, scanning left to right.
The replacement string `\g<1>{new_content}\g<2>` is a regex replacement
template, so backslashes inside `new_content` are interpreted as template
escapes; the template is parsed once, before scanning, as CPython does.
-/

namespace SyncLangs

instance {ε α : Type _} [DecidableEq ε] [DecidableEq α] : DecidableEq (Except ε α) := fun
  | .ok a, .ok b => decidable_of_iff (a = b) (by simp)
  | .ok _, .error _ => isFalse (by simp)
  | .error _, .ok _ => isFalse (by simp)
  | .error e, .error f => decidable_of_iff (e = f) (by simp)

/-- Python exception values raised by the script (messages as strings). -/
inductive PyErr where
  | valueError : List Char → PyErr
  | reError : PyErr
  | indexError : PyErr
  | calledProcessError : PyErr
deriving DecidableEq

/-- Find the leftmost occurrence of `pat` inside `t`: returns
`(before, after)` with `t = before ++ pat ++ after` and `before` shortest,
or `none` when `pat` does not occur in `t`.  This models the search the
regex engine performs for the literal part of the pattern. -/
def splitAtSub (pat : List Char) : List Char → Option (List Char × List Char)
  | [] => if pat.isPrefixOf ([] : List Char) then some ([], []) else none
  | c :: t =>
    if pat.isPrefixOf (c :: t) then some ([], (c :: t).drop pat.length)
    else
      match splitAtSub pat t with
      | some (pre, post) => some (c :: pre, post)
      | none => none

/-- Attempt to match the compiled pattern
`(start\n).*?(\nend)` (with `re.DOTALL`) at the start of `s`.
On success returns `(interior, matchLength)` where `interior` is the
shortest text matched by `.*?` and `matchLength` is the length of the
whole match `start ++ "\n" ++ interior ++ "\n" ++ end`. -/
def matchAt (startM endM s : List Char) : Option (List Char × Nat) :=
  let startNl := startM ++ ['\n']
  let nlEnd := '\n' :: endM
  if startNl.isPrefixOf s then
    match splitAtSub nlEnd (s.drop startNl.length) with
    | some (interior, _) =>
      some (interior, startNl.length + interior.length + nlEnd.length)
    | none => none
  else none

/-- One element of a parsed replacement template: a literal chunk or a
group reference (`\g<n>`, `\n`). -/
inductive TmplItem where
  | lit : List Char → TmplItem
  | group : Nat → TmplItem
deriving DecidableEq

/-- Expand a parsed template at one match.  `g0` is the whole match,
`g1`/`g2` the two capture groups (the marker lines, which are the same at
every match of this pattern). -/
def expandItems (g0 g1 g2 : List Char) : List TmplItem → List Char
  | [] => []
  | .lit cs :: rest => cs ++ expandItems g0 g1 g2 rest
  | .group 0 :: rest => g0 ++ expandItems g0 g1 g2 rest
  | .group 1 :: rest => g1 ++ expandItems g0 g1 g2 rest
  | .group 2 :: rest => g2 ++ expandItems g0 g1 g2 rest
  | .group _ :: rest => expandItems g0 g1 g2 rest

/-- Scan until the first `>`, returning the characters before it and the
remainder after it (models reading the name of a `\g<...>` reference). -/
def splitAtGt : List Char → Option (List Char × List Char)
  | [] => none
  | c :: rest =>
    if c = '>' then some ([], rest)
    else
      match splitAtGt rest with
      | some (name, after) => some (c :: name, after)
      | none => none

/-- Octal digit test. -/
def isOctChar (c : Char) : Bool := '0' ≤ c && c ≤ '7'

/-- Value of an octal digit. -/
def octVal (c : Char) : Nat := c.toNat - 48

/-- Value of a decimal digit. -/
def digVal (c : Char) : Nat := c.toNat - 48

/-- Numeric value of a digit string. -/
def natOfDigits (cs : List Char) : Nat := cs.foldl (fun n c => 10 * n + digVal c) 0

/-- The character escapes recognized in replacement templates
(`re._parser.ESCAPES` restricted to template parsing). -/
def escCharMap (c : Char) : Option Char :=
  if c = 'a' then some (Char.ofNat 7)
  else if c = 'b' then some (Char.ofNat 8)
  else if c = 'f' then some (Char.ofNat 12)
  else if c = 'n' then some '\n'
  else if c = 'r' then some (Char.ofNat 13)
  else if c = 't' then some '\t'
  else if c = 'v' then some (Char.ofNat 11)
  else if c = '\\' then some '\\'
  else none

/-- After `\` and a nonzero decimal digit `c`, decide between a 3-digit
octal escape, a two-digit group reference, and a one-digit group
reference, following the documented rules of `re`.  Returns the parsed
item and the unconsumed remainder; `none` is an invalid group reference
(the pattern has exactly 2 groups). -/
def parseDigitRef (c : Char) (more : List Char) : Option (TmplItem × List Char) :=
  match more with
  | d1 :: d2 :: rest =>
    if isOctChar c && isOctChar d1 && isOctChar d2 then
      if octVal c * 64 + octVal d1 * 8 + octVal d2 ≤ 255 then
        some (.lit [Char.ofNat (octVal c * 64 + octVal d1 * 8 + octVal d2)], rest)
      else none
    else if d1.isDigit then
      let n := 10 * digVal c + digVal d1
      if n ≤ 2 then some (.group n, d2 :: rest) else none
    else if digVal c ≤ 2 then some (.group (digVal c), d1 :: d2 :: rest) else none
  | [d1] =>
    if d1.isDigit then
      let n := 10 * digVal c + digVal d1
      if n ≤ 2 then some (.group n, []) else none
    else if digVal c ≤ 2 then some (.group (digVal c), [d1]) else none
  | [] => if digVal c ≤ 2 then some (.group (digVal c), []) else none

/-- After `\0`, consume up to two further octal digits (octal escape). -/
def octAfterZero : List Char → Nat × List Char
  | [] => (0, [])
  | [d1] => if isOctChar d1 then (octVal d1, []) else (0, [d1])
  | d1 :: d2 :: rest =>
    if isOctChar d1 then
      if isOctChar d2 then (octVal d1 * 8 + octVal d2, rest)
      else (octVal d1, d2 :: rest)
    else (0, d1 :: d2 :: rest)

theorem splitAtGt_some_length : ∀ {l name after : List Char},
    splitAtGt l = some (name, after) → after.length < l.length := by
  intro l
  induction l with
  | nil => intro name after h; simp [splitAtGt] at h
  | cons c rest ih =>
    intro name after h
    simp only [splitAtGt] at h
    by_cases hc : c = '>'
    · rw [if_pos hc] at h
      simp only [Option.some.injEq, Prod.mk.injEq] at h
      obtain ⟨-, h2⟩ := h
      subst h2
      simp [Nat.lt_succ_self]
    · rw [if_neg hc] at h
      cases hsr : splitAtGt rest with
      | none => rw [hsr] at h; exact absurd h (by simp)
      | some p =>
        obtain ⟨pre, post⟩ := p
        rw [hsr] at h
        simp only [Option.some.injEq, Prod.mk.injEq] at h
        obtain ⟨-, h2⟩ := h
        subst h2
        have := ih hsr
        simp only [List.length_cons]
        omega

theorem octAfterZero_length : ∀ (l : List Char), (octAfterZero l).2.length ≤ l.length := by
  intro l
  match l with
  | [] => simp [octAfterZero]
  | [d1] => simp only [octAfterZero]; split <;> simp
  | d1 :: d2 :: rest =>
    simp only [octAfterZero]
    split <;> [skip; simp] <;> split <;> simp <;> omega

theorem parseDigitRef_some_length : ∀ {c : Char} {more after : List Char} {item : TmplItem},
    parseDigitRef c more = some (item, after) → after.length ≤ more.length := by
  intro c more after item h
  match more with
  | [] =>
    simp only [parseDigitRef] at h
    split at h <;> simp_all
  | [d1] =>
    simp only [parseDigitRef] at h
    split at h <;> split at h <;> simp_all
  | d1 :: d2 :: rest =>
    simp only [parseDigitRef] at h
    split at h
    · split at h
      · simp only [Option.some.injEq, Prod.mk.injEq] at h
        obtain ⟨-, h2⟩ := h; subst h2; simp; omega
      · exact absurd h (by simp)
    · split at h
      · split at h
        · simp only [Option.some.injEq, Prod.mk.injEq] at h
          obtain ⟨-, h2⟩ := h; subst h2; simp
        · exact absurd h (by simp)
      · split at h
        · simp only [Option.some.injEq, Prod.mk.injEq] at h
          obtain ⟨-, h2⟩ := h; subst h2; simp
        · exact absurd h (by simp)

/-- One step of CPython's `re._parser.parse_template` for a pattern with
exactly two capture groups and no named groups, parameterized by the
continuation `recur` used for the rest of the template.  `none` models the
`re.error` raised for a bad escape or an invalid group reference.  Unknown
escapes of ASCII letters are errors; unknown escapes of other characters
keep the backslash. -/
def parseTemplateStep (recur : List Char → Option (List TmplItem)) (c : Char)
    (rest : List Char) : Option (List TmplItem) :=
  if c = '\\' then
    match rest with
    | [] => none
    | e :: more =>
      if e = 'g' then
        match more with
        | [] => none
        | lt :: more2 =>
          if lt = '<' then
            match splitAtGt more2 with
            | some (name, after) =>
              if name ≠ [] && name.all Char.isDigit then
                if natOfDigits name ≤ 2 then
                  match recur after with
                  | some items => some (.group (natOfDigits name) :: items)
                  | none => none
                else none
              else none
            | none => none
          else none
      else if e = '0' then
        match recur (octAfterZero more).2 with
        | some items => some (.lit [Char.ofNat ((octAfterZero more).1 % 256)] :: items)
        | none => none
      else if e.isDigit then
        match parseDigitRef e more with
        | some (item, after) =>
          match recur after with
          | some items => some (item :: items)
          | none => none
        | none => none
      else
        match escCharMap e with
        | some ch =>
          match recur more with
          | some items => some (.lit [ch] :: items)
          | none => none
        | none =>
          if e.isAlpha then none
          else
            match recur more with
            | some items => some (.lit ['\\', e] :: items)
            | none => none
  else
    match recur rest with
    | some items => some (.lit [c] :: items)
    | none => none

/-- The template parser: iterate `parseTemplateStep` with an explicit
fuel.  Every step consumes at least one character, so `fuel = length`
always suffices (`parseTemplateFuel_irrel`), and concrete templates can
be evaluated by the kernel. -/
def parseTemplateFuel : Nat → List Char → Option (List TmplItem)
  | _, [] => some []
  | 0, _ :: _ => none
  | fuel + 1, c :: rest => parseTemplateStep (parseTemplateFuel fuel) c rest

/-- Run the template parser (with its always-sufficient fuel). -/
def parseTemplateRun (s : List Char) : Option (List TmplItem) :=
  parseTemplateFuel s.length s

/-- The scan loop of `re.subn`: walk the subject left to right; at each
position try the pattern; on a match, emit the expanded template and
resume right after the match; otherwise copy one character.  Returns the
number of matches and the rewritten text. -/
def subnAux (startM endM : List Char) (items : List TmplItem) : List Char → Nat × List Char
  | [] => (0, [])
  | c :: s =>
    match matchAt startM endM (c :: s) with
    | some (interior, len) =>
      let startNl := startM ++ ['\n']
      let nlEnd := '\n' :: endM
      let repl := expandItems (startNl ++ interior ++ nlEnd) startNl nlEnd items
      let p := subnAux startM endM items (s.drop (len - 1))
      (p.1 + 1, repl ++ p.2)
    | none =>
      let p := subnAux startM endM items s
      (p.1, c :: p.2)
termination_by s => s.length
decreasing_by
  · simp only [List.length_cons, List.length_drop]; omega
  · simp only [List.length_cons]; omega

/-- Structurally recursive twin of `subnAux`, with an explicit fuel that
decreases at every step.  Every step consumes at least one character, so
`fuel = length` always suffices (`subnFuel_eq_subnAux`); this form lets
concrete runs be evaluated by the kernel. -/
def subnFuel (startM endM : List Char) (items : List TmplItem) :
    Nat → List Char → Nat × List Char
  | _, [] => (0, [])
  | 0, _ :: _ => (0, [])
  | fuel + 1, c :: s =>
    match matchAt startM endM (c :: s) with
    | some (interior, len) =>
      let startNl := startM ++ ['\n']
      let nlEnd := '\n' :: endM
      let repl := expandItems (startNl ++ interior ++ nlEnd) startNl nlEnd items
      let p := subnFuel startM endM items fuel (s.drop (len - 1))
      (p.1 + 1, repl ++ p.2)
    | none =>
      let p := subnFuel startM endM items fuel s
      (p.1, c :: p.2)

/-- `re.subn` on the marker pattern: match count and rewritten text. -/
def subnRun (startM endM : List Char) (items : List TmplItem) (content : List Char) :
    Nat × List Char :=
  subnFuel startM endM items content.length content

/-- Number of times the marker pattern matches in `content`
(the `count` returned by `re.subn`). -/
def countMatches (startM endM content : List Char) : Nat :=
  (subnRun startM endM [] content).1

/-- The replacement string `rf"\g<1>{new_content}\g<2>"`. -/
def templateOf (newContent : List Char) : List Char :=
  ['\\', 'g', '<', '1', '>'] ++ newContent ++ ['\\', 'g', '<', '2', '>']

/-- Python `repr` of a string, restricted to the escapes relevant here
(backslash, quotes, newline, carriage return, tab); other non-printable
escaping is elided since no claim depends on it. -/
def pyReprStr (s : List Char) : List Char :=
  let q : Char := if s.contains '\'' && !(s.contains '"') then '"' else '\''
  let body := s.foldr (fun c acc =>
    if c = '\\' then '\\' :: '\\' :: acc
    else if c = q then '\\' :: q :: acc
    else if c = '\n' then '\\' :: 'n' :: acc
    else if c = Char.ofNat 13 then '\\' :: 'r' :: acc
    else if c = '\t' then '\\' :: 't' :: acc
    else c :: acc) []
  q :: body ++ [q]

/-- The message of the `ValueError` raised when the markers are missing:
`f"Markers not found: {start_marker!r} ... {end_marker!r}"`. -/
def markersNotFoundMsg (startM endM : List Char) : List Char :=
  "Markers not found: ".data ++ pyReprStr startM ++ " ... ".data ++ pyReprStr endM

/-- `replace_section(content, start_marker, end_marker, new_content)`:
build the pattern and the replacement template, run `re.subn`, raise
`ValueError` when the pattern never matched, otherwise return the
rewritten text.  A malformed replacement template raises `re.error`
(modelled by `PyErr.reError`) before the subject is scanned. -/
def replace_section (content startM endM newContent : List Char) :
    Except PyErr (List Char) :=
  match parseTemplateRun (templateOf newContent) with
  | none => .error .reError
  | some items =>
    let r := subnRun startM endM items content
    if r.1 = 0 then .error (.valueError (markersNotFoundMsg startM endM))
    else .ok r.2

/-- Lexicographic (code-point) order on strings, Python's `<=` on `str`. -/
def lexLe : List Char → List Char → Bool
  | [], _ => true
  | _ :: _, [] => false
  | a :: s, b :: t => decide (a < b) || (decide (a = b) && lexLe s t)

/-- The recognized namespace marker `"lang-"`. -/
def langPre : List Char := "lang-".data

/-- One entry of the crates.io `versions` array: its `num` field and the
key set of its `features` mapping (only the keys are used). -/
structure VersionEntry where
  num : List Char
  features : List (List Char)
deriving DecidableEq

/-- Python `repr` of a list of strings, as interpolated by the f-string. -/
def pyReprStrList (l : List (List Char)) : List Char :=
  '[' :: (List.intercalate ", ".data (l.map pyReprStr)) ++ [']']

/-- The message of the `ValueError` raised for an unknown version:
`f"Version {version} not found. Available: {available}"`. -/
def versionNotFoundMsg (v : List Char) (versions : List VersionEntry) : List Char :=
  "Version ".data ++ v ++ " not found. Available: ".data
    ++ pyReprStrList ((versions.take 10).map (fun e => e.num))

/-- `sorted(k for k in features if k.startswith("lang-"))`. -/
def sortLangs (features : List (List Char)) : List (List Char) :=
  List.insertionSort (fun a b => lexLe a b = true)
    (features.filter (fun k => langPre.isPrefixOf k))

/-- `fetch_lang_features(version)` after the network/JSON layer: `if
version:` is a truthiness test, so both `None` and the empty string fall
through to `versions[0]`; a truthy version is looked up by exact `num`
match.  The `lang-` feature keys of the selected entry are kept and
sorted. -/
def fetch_lang_features (versions : List VersionEntry) (version : Option (List Char)) :
    Except PyErr (List Char × List (List Char)) :=
  match version with
  | some v =>
    if v = [] then
      match versions with
      | [] => .error .indexError
      | ver :: _ => .ok (ver.num, sortLangs ver.features)
    else
      match versions.find? (fun e => e.num == v) with
      | none => .error (.valueError (versionNotFoundMsg v versions))
      | some ver => .ok (ver.num, sortLangs ver.features)
  | none =>
    match versions with
    | [] => .error .indexError
    | ver :: _ => .ok (ver.num, sortLangs ver.features)

/-- Characters that `str.splitlines` treats as line boundaries. -/
def isLineBreakChar (c : Char) : Bool :=
  c = '\n' || c = Char.ofNat 13 || c = Char.ofNat 11 || c = Char.ofNat 12
    || c = Char.ofNat 28 || c = Char.ofNat 29 || c = Char.ofNat 30
    || c = Char.ofNat 133 || c = Char.ofNat 8232 || c = Char.ofNat 8233

/-- Worker for `str.splitlines`: `cur` is the current line, reversed.
A `\r\n` pair counts as one boundary. -/
def pySplitlinesAux (cur : List Char) : List Char → List (List Char)
  | [] => if cur = [] then [] else [cur.reverse]
  | [c] =>
    if isLineBreakChar c then [cur.reverse]
    else [(c :: cur).reverse]
  | c :: d :: rest =>
    if c = Char.ofNat 13 then
      if d = '\n' then cur.reverse :: pySplitlinesAux [] rest
      else cur.reverse :: pySplitlinesAux [] (d :: rest)
    else if isLineBreakChar c then cur.reverse :: pySplitlinesAux [] (d :: rest)
    else pySplitlinesAux (c :: cur) (d :: rest)

/-- `str.splitlines()` (no terminator kept, no trailing empty line). -/
def pySplitlines (s : List Char) : List (List Char) := pySplitlinesAux [] s

/-- Characters `str.strip()` removes (Python's `str.isspace` set,
restricted to the ASCII/latin-1 part; other Unicode space code points are
elided since no claim depends on them). -/
def isPySpace (c : Char) : Bool :=
  c = ' ' || c = '\t' || c = '\n' || c = Char.ofNat 13 || c = Char.ofNat 11
    || c = Char.ofNat 12 || c = Char.ofNat 28 || c = Char.ofNat 29
    || c = Char.ofNat 30 || c = Char.ofNat 31 || c = Char.ofNat 133
    || c = Char.ofNat 160

/-- `str.strip()`. -/
def pyStrip (s : List Char) : List Char :=
  ((s.dropWhile isPySpace).reverse.dropWhile isPySpace).reverse

/-- The literal `"feature:"` keyword looked for in `builtin.rs`. -/
def featureKw : List Char := "feature:".data

/-- `set.add`: append the element when it is not already present
(membership is all that matters; insertion order is irrelevant because
every consumer sorts). -/
def addLang (langs : List (List Char)) (l : List Char) : List (List Char) :=
  if l ∈ langs then langs else langs ++ [l]

/-- Processing of one line of `builtin.rs` by `parse_builtin_langs`. -/
def parseBuiltinStep (langs : List (List Char)) (line : List Char) : List (List Char) :=
  let line := pyStrip line
  if featureKw.isPrefixOf line then
    let rest := pyStrip (line.drop featureKw.length)
    match rest with
    | '"' :: rest2 =>
      if rest2.contains '"' then
        let lang := rest2.takeWhile (fun c => c ≠ '"')
        if langPre.isPrefixOf lang then addLang langs lang else langs
      else langs
    | _ => langs
  else langs

/-- `parse_builtin_langs(path)` applied to the file content: scan the
lines, collecting the quoted `lang-*` names after a `feature:` keyword. -/
def parse_builtin_langs (content : List Char) : List (List Char) :=
  (pySplitlines content).foldl parseBuiltinStep []

/-- `"\n".join(...)`. -/
def joinLines (ls : List (List Char)) : List Char := List.intercalate ['\n'] ls

/-- One line of the quoted-identifier list: `f'    "{lang}",'`. -/
def quotedLangLine (lang : List Char) : List Char :=
  "    \"".data ++ lang ++ "\",".data

/-- The all-languages block body shared by both updaters. -/
def allLangsItems (langs : List (List Char)) : List Char :=
  joinLines (langs.map quotedLangLine)

/-- One feature line of plotnik-langs: `f'{lang} = ["dep:arborium-{lang[5:]}"]'`. -/
def langsFeatureLine (lang : List Char) : List Char :=
  lang ++ " = [\"dep:arborium-".data ++ lang.drop 5 ++ "\"]".data

/-- One dependency line of plotnik-langs:
`f'arborium-{lang[5:]} = {{ version = "{version}", optional = true }}'`. -/
def langsDepLine (version lang : List Char) : List Char :=
  "arborium-".data ++ lang.drop 5 ++ " = \x7b version = \"".data ++ version
    ++ "\", optional = true \x7d".data

/-- One feature re-export line of plotnik-cli:
`f'{lang} = ["plotnik-langs/{lang}"]'`. -/
def cliFeatureLine (lang : List Char) : List Char :=
  lang ++ " = [\"plotnik-langs/".data ++ lang ++ "\"]".data

/-- Marker lines used in the two Cargo.toml documents. -/
def mkAllLangsBegin : List Char := "# @generated:all-languages:begin".data

def mkAllLangsEnd : List Char := "# @generated:all-languages:end".data

def mkFeaturesBegin : List Char := "# @generated:lang-features:begin".data

def mkFeaturesEnd : List Char := "# @generated:lang-features:end".data

def mkDepsBegin : List Char := "# @generated:lang-deps:begin".data

def mkDepsEnd : List Char := "# @generated:lang-deps:end".data

/-- The text `update_plotnik_langs` computes for plotnik-langs/Cargo.toml:
the three successive `replace_section` rewrites of the original content. -/
def computeLangsText (content version : List Char) (langs : List (List Char)) :
    Except PyErr (List Char) := do
  let c1 ← replace_section content mkAllLangsBegin mkAllLangsEnd (allLangsItems langs)
  let c2 ← replace_section c1 mkFeaturesBegin mkFeaturesEnd
    (joinLines (langs.map langsFeatureLine))
  replace_section c2 mkDepsBegin mkDepsEnd
    (joinLines (langs.map (langsDepLine version)))

/-- `update_plotnik_langs(path, version, langs, dry_run)`.  The file system
is made explicit: the result is `(changed, written)` where `written` is
`some newText` exactly when the function wrote the file. -/
def update_plotnik_langs (content version : List Char) (langs : List (List Char))
    (dryRun : Bool) : Except PyErr (Bool × Option (List Char)) :=
  match computeLangsText content version langs with
  | .error e => .error e
  | .ok newText =>
    if newText = content then .ok (false, none)
    else if dryRun then .ok (true, none)
    else .ok (true, some newText)

/-- The text `update_plotnik_cli` computes for plotnik-cli/Cargo.toml. -/
def computeCliText (content : List Char) (langs : List (List Char)) :
    Except PyErr (List Char) := do
  let c1 ← replace_section content mkAllLangsBegin mkAllLangsEnd (allLangsItems langs)
  replace_section c1 mkFeaturesBegin mkFeaturesEnd (joinLines (langs.map cliFeatureLine))

/-- `update_plotnik_cli(path, langs, dry_run)`. -/
def update_plotnik_cli (content : List Char) (langs : List (List Char))
    (dryRun : Bool) : Except PyErr (Bool × Option (List Char)) :=
  match computeCliText content langs with
  | .error e => .error e
  | .ok newText =>
    if newText = content then .ok (false, none)
    else if dryRun then .ok (true, none)
    else .ok (true, some newText)

/-- `check_builtin_consistency(builtin_path, langs)`:
`added = sorted(set(langs) - defined)`, `removed = sorted(defined - set(langs))`. -/
def check_builtin_consistency (builtinContent : List Char) (langs : List (List Char)) :
    List (List Char) × List (List Char) :=
  let defined := parse_builtin_langs builtinContent
  let expected := langs.dedup
  (List.insertionSort (fun a b => lexLe a b = true)
      (expected.filter (fun l => decide (¬ l ∈ defined))),
   List.insertionSort (fun a b => lexLe a b = true)
      (defined.filter (fun l => decide (¬ l ∈ expected))))

/-- The three documents `main` touches, by content. -/
structure FS where
  langsToml : List Char
  cliToml : List Char
  builtinRs : List Char
deriving DecidableEq

/-- Apply the (optional) write of `update_plotnik_langs` to the file system. -/
def writeLangs (fs : FS) (w : Option (List Char)) : FS :=
  match w with
  | some t => { fs with langsToml := t }
  | none => fs

/-- Apply the (optional) write of `update_plotnik_cli` to the file system. -/
def writeCli (fs : FS) (w : Option (List Char)) : FS :=
  match w with
  | some t => { fs with cliToml := t }
  | none => fs

/-- `main()` after argument parsing, with the file system and the comment
capability made explicit.  `postOk` tells whether the `gh pr comment`
subprocess would succeed (`check=True` raises on failure).  On an uncaught
exception the result is `.error (e, fs)` where `fs` is the file-system
state at that moment (the process exits non-zero); on a completed run the
result is `.ok (fs, exitCode)` where drift exits via `SystemExit(1)`. -/
def mainModel (versions : List VersionEntry) (argVersion : Option (List Char))
    (dryRun ci postOk : Bool) (fs : FS) : Except (PyErr × FS) (FS × Nat) :=
  match fetch_lang_features versions argVersion with
  | .error e => .error (e, fs)
  | .ok (version, langs) =>
    match update_plotnik_langs fs.langsToml version langs dryRun with
    | .error e => .error (e, fs)
    | .ok (_, w1) =>
      let fs1 : FS := writeLangs fs w1
      match update_plotnik_cli fs1.cliToml langs dryRun with
      | .error e => .error (e, fs1)
      | .ok (_, w2) =>
        let fs2 : FS := writeCli fs1 w2
        let ar := check_builtin_consistency fs2.builtinRs langs
        if ar.1 = [] ∧ ar.2 = [] then .ok (fs2, 0)
        else if ci ∧ postOk = false then .error (.calledProcessError, fs2)
        else .ok (fs2, 1)

/-- Position of the first occurrence of `x` in a list of strings (the
length of the list when absent); used to state ordering properties of the
generated blocks. -/
def firstPos (x : List Char) : List (List Char) → Nat
  | [] => 0
  | y :: l => if y = x then 0 else firstPos x l + 1

/-- Concrete plotnik-langs/Cargo.toml fixture (all three marker pairs). -/
def exampleLangsToml : List Char :=
  ("[features]\n# @generated:all-languages:begin\nold\n# @generated:all-languages:end\n"
    ++ "# @generated:lang-features:begin\nold\n# @generated:lang-features:end\n"
    ++ "[dependencies]\n# @generated:lang-deps:begin\nold\n# @generated:lang-deps:end\n").data

/-- `exampleLangsToml` after updating to catalog `["lang-go"]` at version 1.0. -/
def exampleLangsTomlNew : List Char :=
  ("[features]\n# @generated:all-languages:begin\n    \"lang-go\",\n"
    ++ "# @generated:all-languages:end\n# @generated:lang-features:begin\n"
    ++ "lang-go = [\"dep:arborium-go\"]\n# @generated:lang-features:end\n"
    ++ "[dependencies]\n# @generated:lang-deps:begin\n"
    ++ "arborium-go = \x7b version = \"1.0\", optional = true \x7d\n"
    ++ "# @generated:lang-deps:end\n").data

/-- Concrete plotnik-cli/Cargo.toml fixture (both marker pairs). -/
def exampleCliToml : List Char :=
  ("# @generated:all-languages:begin\nold\n# @generated:all-languages:end\n"
    ++ "# @generated:lang-features:begin\nold\n# @generated:lang-features:end\n").data

/-- `exampleCliToml` after updating to catalog `["lang-go"]`. -/
def exampleCliTomlNew : List Char :=
  ("# @generated:all-languages:begin\n    \"lang-go\",\n# @generated:all-languages:end\n"
    ++ "# @generated:lang-features:begin\nlang-go = [\"plotnik-langs/lang-go\"]\n"
    ++ "# @generated:lang-features:end\n").data

/-- Concrete builtin.rs fixture declaring `lang-go`. -/
def exampleBuiltinRs : List Char := "  feature: \"lang-go\",\n".data

/-! ### Basic facts about literal-substring matching -/

theorem isPrefixOf_iff_append {p l : List Char} :
    p.isPrefixOf l = true ↔ ∃ t, l = p ++ t := by
  induction p generalizing l with
  | nil => simp [List.isPrefixOf]
  | cons a p ih =>
    cases l with
    | nil => simp [List.isPrefixOf]
    | cons b l =>
      simp only [List.isPrefixOf, Bool.and_eq_true, beq_iff_eq, ih, List.cons_append,
        List.cons.injEq]
      constructor
      · rintro ⟨hab, t, ht⟩
        exact ⟨t, hab.symm, ht⟩
      · rintro ⟨t, hab, ht⟩
        exact ⟨hab.symm, t, ht⟩

theorem isPrefixOf_iff_take {p l : List Char} :
    p.isPrefixOf l = true ↔ l.take p.length = p := by
  rw [isPrefixOf_iff_append]
  constructor
  · rintro ⟨t, rfl⟩
    exact List.take_left p t
  · intro h
    refine ⟨l.drop p.length, ?_⟩
    conv_lhs => rw [← List.take_append_drop p.length l]
    rw [h]

theorem splitAtSub_some_append {pat t pre post : List Char}
    (h : splitAtSub pat t = some (pre, post)) : t = pre ++ pat ++ post := by
  induction t generalizing pre with
  | nil =>
    simp only [splitAtSub] at h
    split at h
    · rename_i hp
      rw [isPrefixOf_iff_append] at hp
      obtain ⟨u, hu⟩ := hp
      simp only [Option.some.injEq, Prod.mk.injEq] at h
      obtain ⟨h1, h2⟩ := h
      subst h1; subst h2
      have hp2 : pat = [] := (List.append_eq_nil.mp hu.symm).1
      simp [hp2]
    · exact absurd h (by simp)
  | cons c t ih =>
    simp only [splitAtSub] at h
    split at h
    · rename_i hp
      rw [isPrefixOf_iff_append] at hp
      obtain ⟨u, hu⟩ := hp
      simp only [Option.some.injEq, Prod.mk.injEq] at h
      obtain ⟨h1, h2⟩ := h
      subst h1
      rw [hu, List.drop_left] at h2
      rw [hu, ← h2]
      simp
    · cases hsp : splitAtSub pat t with
      | none => rw [hsp] at h; exact absurd h (by simp)
      | some p =>
        obtain ⟨pre1, post1⟩ := p
        rw [hsp] at h
        simp only [Option.some.injEq, Prod.mk.injEq] at h
        obtain ⟨h1, h2⟩ := h
        subst h2
        rw [← h1]
        simpa using ih hsp

theorem splitAtSub_some_minimal {pat t pre post : List Char}
    (h : splitAtSub pat t = some (pre, post)) :
    ∀ k, k < pre.length → ¬ pat.isPrefixOf (t.drop k) = true := by
  induction t generalizing pre post with
  | nil =>
    intro k hk
    simp only [splitAtSub] at h
    split at h
    · simp only [Option.some.injEq, Prod.mk.injEq] at h
      obtain ⟨h1, -⟩ := h
      subst h1
      simp at hk
    · exact absurd h (by simp)
  | cons c t ih =>
    intro k hk
    simp only [splitAtSub] at h
    split at h
    · simp only [Option.some.injEq, Prod.mk.injEq] at h
      obtain ⟨h1, -⟩ := h
      subst h1
      simp at hk
    · rename_i hp
      cases hsp : splitAtSub pat t with
      | none => rw [hsp] at h; exact absurd h (by simp)
      | some p =>
        obtain ⟨pre1, post1⟩ := p
        rw [hsp] at h
        simp only [Option.some.injEq, Prod.mk.injEq] at h
        obtain ⟨h1, -⟩ := h
        subst h1
        cases k with
        | zero => simpa using hp
        | succ k =>
          rw [List.drop_succ_cons]
          exact ih hsp k (by simpa using hk)

theorem splitAtSub_none {pat t : List Char} (h : splitAtSub pat t = none) :
    ∀ pre post, t ≠ pre ++ pat ++ post := by
  induction t with
  | nil =>
    intro pre post heq
    simp only [splitAtSub] at h
    split at h
    · exact absurd h (by simp)
    · rename_i hp
      have : pat = [] := by
        have := heq.symm
        rcases List.append_eq_nil.mp (List.append_eq_nil.mp this).1 with ⟨-, h2⟩
        exact h2
      rw [this] at hp
      simp [List.isPrefixOf] at hp
  | cons c t ih =>
    intro pre post heq
    simp only [splitAtSub] at h
    split at h
    · exact absurd h (by simp)
    · rename_i hp
      cases hsp : splitAtSub pat t with
      | some p => rw [hsp] at h; obtain ⟨a, b⟩ := p; exact absurd h (by simp)
      | none =>
        cases pre with
        | nil =>
          refine absurd ?_ hp
          rw [isPrefixOf_iff_append]
          exact ⟨post, by simpa using heq⟩
        | cons d pre =>
          simp only [List.cons_append, List.cons.injEq] at heq
          exact ih hsp pre post heq.2

theorem splitAtSub_construct {pat pre post : List Char}
    (hmin : ∀ k, k < pre.length → ¬ pat.isPrefixOf ((pre ++ pat ++ post).drop k) = true) :
    splitAtSub pat (pre ++ pat ++ post) = some (pre, post) := by
  induction pre with
  | nil =>
    simp only [List.nil_append]
    cases hps : pat ++ post with
    | nil =>
      rcases List.append_eq_nil.mp hps with ⟨h1, h2⟩
      subst h1; subst h2
      simp [splitAtSub, List.isPrefixOf]
    | cons c u =>
      rw [← hps]
      have hp : pat.isPrefixOf (pat ++ post) = true := isPrefixOf_iff_append.mpr ⟨post, rfl⟩
      rw [hps] at hp ⊢
      simp only [splitAtSub, if_pos hp]
      rw [← hps, List.drop_left]
  | cons c pre ih =>
    have h0 : ¬ pat.isPrefixOf ((c :: pre) ++ pat ++ post) = true := by
      have := hmin 0 (by simp)
      simpa using this
    simp only [List.cons_append] at h0 ⊢
    simp only [splitAtSub, if_neg h0]
    rw [ih]
    intro k hk
    have := hmin (k + 1) (by simp; omega)
    simpa using this

/-! ### Facts about `matchAt` -/

theorem matchAt_some_decomp {startM endM s i : List Char} {len : Nat}
    (h : matchAt startM endM s = some (i, len)) :
    s = (startM ++ ['\n']) ++ i ++ (('\n' :: endM) ++ s.drop len)
    ∧ len = (startM ++ ['\n']).length + i.length + ('\n' :: endM).length := by
  simp only [matchAt] at h
  split at h
  · rename_i hp
    cases hsp : splitAtSub ('\n' :: endM) (s.drop (startM ++ ['\n']).length) with
    | none => rw [hsp] at h; exact absurd h (by simp)
    | some p =>
      obtain ⟨i1, rest⟩ := p
      rw [hsp] at h
      simp only [Option.some.injEq, Prod.mk.injEq] at h
      obtain ⟨h1, h2⟩ := h
      have hs : s = (startM ++ ['\n']) ++ s.drop (startM ++ ['\n']).length := by
        rw [isPrefixOf_iff_append] at hp
        obtain ⟨u, hu⟩ := hp
        rw [hu, List.drop_left]
      have hu2 : s.drop (startM ++ ['\n']).length = i1 ++ ('\n' :: endM) ++ rest :=
        splitAtSub_some_append hsp
      have hlen : len = (startM ++ ['\n']).length + i1.length + ('\n' :: endM).length := h2.symm
      have hsfull : s = ((startM ++ ['\n']) ++ i1 ++ ('\n' :: endM)) ++ rest := by
        rw [hs, hu2]; simp
      have hdrop : s.drop len = rest := by
        rw [hsfull]
        have : ((startM ++ ['\n']) ++ i1 ++ ('\n' :: endM)).length = len := by
          simp [hlen]; omega
        rw [List.drop_left' this]
      subst h1
      constructor
      · rw [hdrop, hsfull]; simp
      · exact hlen
  · exact absurd h (by simp)

theorem matchAt_some_minimal {startM endM s i : List Char} {len : Nat}
    (h : matchAt startM endM s = some (i, len)) :
    ∀ k, k < i.length →
      ¬ ('\n' :: endM).isPrefixOf ((s.drop (startM ++ ['\n']).length).drop k) = true := by
  simp only [matchAt] at h
  split at h
  · cases hsp : splitAtSub ('\n' :: endM) (s.drop (startM ++ ['\n']).length) with
    | none => rw [hsp] at h; exact absurd h (by simp)
    | some p =>
      obtain ⟨i1, rest⟩ := p
      rw [hsp] at h
      simp only [Option.some.injEq, Prod.mk.injEq] at h
      obtain ⟨h1, -⟩ := h
      subst h1
      exact splitAtSub_some_minimal hsp
  · exact absurd h (by simp)

theorem matchAt_construct {startM endM b X : List Char}
    (hb : ∀ k, k < b.length →
      ¬ ('\n' :: endM).isPrefixOf ((b ++ ('\n' :: endM) ++ X).drop k) = true) :
    matchAt startM endM ((startM ++ ['\n']) ++ (b ++ ('\n' :: endM) ++ X))
      = some (b, (startM ++ ['\n']).length + b.length + ('\n' :: endM).length) := by
  have hp : (startM ++ ['\n']).isPrefixOf ((startM ++ ['\n']) ++ (b ++ ('\n' :: endM) ++ X))
      = true := isPrefixOf_iff_append.mpr ⟨_, rfl⟩
  simp only [matchAt, if_pos hp, List.drop_left]
  rw [splitAtSub_construct hb]

theorem matchAt_none_not_startNl {startM endM s : List Char}
    (h : ¬ (startM ++ ['\n']).isPrefixOf s = true) : matchAt startM endM s = none := by
  simp only [matchAt, if_neg h]

theorem matchAt_none_no_nlEnd {startM endM s : List Char}
    (h : splitAtSub ('\n' :: endM) (s.drop (startM ++ ['\n']).length) = none) :
    matchAt startM endM s = none := by
  simp only [matchAt, h]
  split <;> rfl

theorem matchAt_none_cases {startM endM s : List Char}
    (h : matchAt startM endM s = none) :
    ¬ (startM ++ ['\n']).isPrefixOf s = true
    ∨ splitAtSub ('\n' :: endM) (s.drop (startM ++ ['\n']).length) = none := by
  simp only [matchAt] at h
  split at h
  · cases hsp : splitAtSub ('\n' :: endM) (s.drop (startM ++ ['\n']).length) with
    | none => exact Or.inr rfl
    | some p => obtain ⟨a, b⟩ := p; rw [hsp] at h; exact absurd h (by simp)
  · rename_i hp; exact Or.inl hp

/-! ### Equations and fuel bridge for the substitution scan -/

theorem subnAux_nil {startM endM : List Char} {items : List TmplItem} :
    subnAux startM endM items [] = (0, []) := by
  simp [subnAux]

theorem subnAux_cons_some {startM endM : List Char} {items : List TmplItem}
    {c : Char} {s i : List Char} {len : Nat}
    (hm : matchAt startM endM (c :: s) = some (i, len)) :
    subnAux startM endM items (c :: s)
      = ((subnAux startM endM items (s.drop (len - 1))).1 + 1,
         expandItems ((startM ++ ['\n']) ++ i ++ ('\n' :: endM)) (startM ++ ['\n'])
             ('\n' :: endM) items
           ++ (subnAux startM endM items (s.drop (len - 1))).2) := by
  rw [subnAux]
  simp [hm]

theorem subnAux_cons_none {startM endM : List Char} {items : List TmplItem}
    {c : Char} {s : List Char}
    (hm : matchAt startM endM (c :: s) = none) :
    subnAux startM endM items (c :: s)
      = ((subnAux startM endM items s).1, c :: (subnAux startM endM items s).2) := by
  rw [subnAux]
  simp [hm]

theorem subnFuel_eq_subnAux {startM endM : List Char} {items : List TmplItem} :
    ∀ (fuel : Nat) (t : List Char), t.length ≤ fuel →
      subnFuel startM endM items fuel t = subnAux startM endM items t := by
  intro fuel
  induction fuel with
  | zero =>
    intro t ht
    have : t = [] := List.length_eq_zero.mp (Nat.le_zero.mp ht)
    subst this
    simp [subnFuel, subnAux_nil]
  | succ fuel ih =>
    intro t ht
    cases t with
    | nil => simp [subnFuel, subnAux_nil]
    | cons c s =>
      cases hm : matchAt startM endM (c :: s) with
      | some p =>
        obtain ⟨i, len⟩ := p
        rw [subnAux_cons_some hm]
        simp only [subnFuel, hm]
        rw [ih]
        have : (s.drop (len - 1)).length ≤ s.length := by
          simp [List.length_drop]
        simp only [List.length_cons] at ht
        omega
      | none =>
        rw [subnAux_cons_none hm]
        simp only [subnFuel, hm]
        rw [ih]
        simp only [List.length_cons] at ht
        omega

theorem subnRun_eq_subnAux {startM endM : List Char} {items : List TmplItem}
    {t : List Char} : subnRun startM endM items t = subnAux startM endM items t :=
  subnFuel_eq_subnAux t.length t le_rfl

/-! ### Fuel irrelevance for the template parser -/

theorem parseTemplateStep_congr {r1 r2 : List Char → Option (List TmplItem)} {c : Char}
    {rest : List Char} (h : ∀ u : List Char, u.length ≤ rest.length → r1 u = r2 u) :
    parseTemplateStep r1 c rest = parseTemplateStep r2 c rest := by
  simp only [parseTemplateStep]
  by_cases hc : c = '\\'
  · rw [if_pos hc, if_pos hc]
    cases rest with
    | nil => rfl
    | cons e more =>
      dsimp only
      by_cases he : e = 'g'
      · rw [if_pos he, if_pos he]
        cases more with
        | nil => rfl
        | cons lt more2 =>
          dsimp only
          by_cases hlt : lt = '<'
          · rw [if_pos hlt, if_pos hlt]
            cases hsg : splitAtGt more2 with
            | none => rfl
            | some p =>
              obtain ⟨name, after⟩ := p
              have hal := splitAtGt_some_length hsg
              dsimp only
              by_cases hname : (decide (name ≠ []) && name.all Char.isDigit) = true
              · rw [if_pos hname, if_pos hname]
                by_cases hnat : natOfDigits name ≤ 2
                · rw [if_pos hnat, if_pos hnat,
                    h after (by simp only [List.length_cons]; omega)]
                · rw [if_neg hnat, if_neg hnat]
              · rw [if_neg hname, if_neg hname]
          · rw [if_neg hlt, if_neg hlt]
      · rw [if_neg he, if_neg he]
        by_cases h0 : e = '0'
        · rw [if_pos h0, if_pos h0]
          have hoct := octAfterZero_length more
          rw [h (octAfterZero more).2 (by simp only [List.length_cons]; omega)]
        · rw [if_neg h0, if_neg h0]
          by_cases hd : e.isDigit = true
          · rw [if_pos hd, if_pos hd]
            cases hdr : parseDigitRef e more with
            | none => rfl
            | some p =>
              obtain ⟨item, after⟩ := p
              have hlen := parseDigitRef_some_length hdr
              dsimp only
              rw [h after (by simp only [List.length_cons]; omega)]
          · rw [if_neg hd, if_neg hd]
            cases hesc : escCharMap e with
            | some ch =>
              dsimp only
              rw [h more (by simp only [List.length_cons]; omega)]
            | none =>
              dsimp only
              by_cases ha : e.isAlpha = true
              · rw [if_pos ha, if_pos ha]
              · rw [if_neg ha, if_neg ha,
                  h more (by simp only [List.length_cons]; omega)]
  · rw [if_neg hc, if_neg hc, h rest (le_refl _)]

theorem parseTemplateFuel_irrel : ∀ (n : Nat) (s : List Char) (f1 f2 : Nat),
    s.length ≤ n → s.length ≤ f1 → s.length ≤ f2 →
    parseTemplateFuel f1 s = parseTemplateFuel f2 s := by
  intro n
  induction n with
  | zero =>
    intro s f1 f2 hn _ _
    have hs : s = [] := List.length_eq_zero.mp (Nat.le_zero.mp hn)
    subst hs
    cases f1 <;> cases f2 <;> rfl
  | succ n ih =>
    intro s f1 f2 hn h1 h2
    cases s with
    | nil => cases f1 <;> cases f2 <;> rfl
    | cons c rest =>
      simp only [List.length_cons] at hn h1 h2
      obtain ⟨g1, rfl⟩ : ∃ g1, f1 = g1 + 1 := ⟨f1 - 1, by omega⟩
      obtain ⟨g2, rfl⟩ : ∃ g2, f2 = g2 + 1 := ⟨f2 - 1, by omega⟩
      show parseTemplateStep (parseTemplateFuel g1) c rest
        = parseTemplateStep (parseTemplateFuel g2) c rest
      exact parseTemplateStep_congr fun u hu => ih u g1 g2 (by omega) (by omega) (by omega)

theorem parseTemplateFuel_run_eq {s : List Char} {fuel : Nat} (h : s.length ≤ fuel) :
    parseTemplateFuel fuel s = parseTemplateRun s :=
  parseTemplateFuel_irrel fuel s fuel s.length h h (le_refl _)

/-! ### Parsing and expanding backslash-free replacement content -/

theorem expandItems_append {g0 g1 g2 : List Char} :
    ∀ (xs ys : List TmplItem),
      expandItems g0 g1 g2 (xs ++ ys) = expandItems g0 g1 g2 xs ++ expandItems g0 g1 g2 ys := by
  intro xs ys
  induction xs with
  | nil => simp [expandItems]
  | cons it rest ih =>
    cases it with
    | lit cs => simp [expandItems, ih]
    | group n =>
      rcases n with _ | _ | _ | n <;> simp [expandItems, ih]

theorem expandItems_litMap {g0 g1 g2 : List Char} :
    ∀ (b : List Char), expandItems g0 g1 g2 (b.map fun c => TmplItem.lit [c]) = b := by
  intro b
  induction b with
  | nil => simp [expandItems]
  | cons c rest ih => simp [expandItems, ih]

theorem parseTemplateFuel_noBs {b : List Char} (hb : '\\' ∉ b) :
    ∀ (tail : List Char) (fuel : Nat), (b ++ tail).length ≤ fuel →
      parseTemplateFuel fuel (b ++ tail)
        = (parseTemplateRun tail).map (fun items => (b.map fun c => TmplItem.lit [c]) ++ items) := by
  induction b with
  | nil =>
    intro tail fuel hf
    simp only [List.nil_append] at hf ⊢
    rw [parseTemplateFuel_run_eq hf]
    cases parseTemplateRun tail <;> simp
  | cons c b ih =>
    intro tail fuel hf
    have hc : ¬ c = '\\' := fun hcc => hb (hcc ▸ List.mem_cons_self c b)
    have hbb : '\\' ∉ b := fun hm => hb (List.mem_cons_of_mem c hm)
    simp only [List.cons_append, List.length_cons] at hf ⊢
    obtain ⟨g, rfl⟩ : ∃ g, fuel = g + 1 := ⟨fuel - 1, by omega⟩
    show parseTemplateStep (parseTemplateFuel g) c (b ++ tail) = _
    simp only [parseTemplateStep, if_neg hc]
    rw [ih hbb tail g (by simp only [List.length_append] at hf ⊢; omega)]
    cases parseTemplateRun tail <;> simp

theorem parseTemplateRun_templateOf {b : List Char} (hb : '\\' ∉ b) :
    parseTemplateRun (templateOf b)
      = some (.group 1 :: ((b.map fun c => TmplItem.lit [c]) ++ [.group 2])) := by
  show parseTemplateFuel (templateOf b).length (templateOf b) = _
  have hshape : templateOf b
      = '\\' :: 'g' :: '<' :: '1' :: '>' :: (b ++ ['\\', 'g', '<', '2', '>']) := by
    simp [templateOf]
  have hlen : (templateOf b).length = b.length + 10 := by
    simp [templateOf]
  rw [hshape] at *
  rw [hlen]
  show parseTemplateStep (parseTemplateFuel (b.length + 9)) '\\'
      ('g' :: '<' :: '1' :: '>' :: (b ++ ['\\', 'g', '<', '2', '>'])) = _
  simp only [parseTemplateStep, if_pos rfl, if_true]
  have hsg : splitAtGt ('1' :: '>' :: (b ++ ['\\', 'g', '<', '2', '>']))
      = some (['1'], b ++ ['\\', 'g', '<', '2', '>']) := rfl
  rw [hsg]
  dsimp only
  rw [if_pos (by decide), if_pos (by decide)]
  rw [parseTemplateFuel_noBs hb ['\\', 'g', '<', '2', '>'] (b.length + 9) (by simp)]
  have h2 : parseTemplateRun ['\\', 'g', '<', '2', '>'] = some [TmplItem.group 2] := by decide
  rw [h2]
  simp
  decide

theorem expandItems_templateOf {b g0 gA gB : List Char} :
    expandItems g0 gA gB (.group 1 :: ((b.map fun c => TmplItem.lit [c]) ++ [.group 2]))
      = gA ++ b ++ gB := by
  simp [expandItems, expandItems_append, expandItems_litMap]

/-! ### Structure of the substitution scan -/

theorem subnAux_count_zero {startM endM : List Char} {items : List TmplItem} :
    ∀ t : List Char, (subnAux startM endM items t).1 = 0
      → (subnAux startM endM items t).2 = t := by
  intro t
  induction t with
  | nil => intro h; rw [subnAux_nil]
  | cons c s ih =>
    intro h
    cases hm : matchAt startM endM (c :: s) with
    | some p =>
      obtain ⟨i, len⟩ := p
      rw [subnAux_cons_some hm] at h
      simp at h
    | none =>
      rw [subnAux_cons_none hm] at h ⊢
      simp only at h
      rw [ih h]

theorem subnAux_count_items {startM endM : List Char} (items items' : List TmplItem) :
    ∀ (n : Nat) (t : List Char), t.length ≤ n →
      (subnAux startM endM items t).1 = (subnAux startM endM items' t).1 := by
  intro n
  induction n with
  | zero =>
    intro t ht
    have hs : t = [] := List.length_eq_zero.mp (Nat.le_zero.mp ht)
    subst hs
    rw [subnAux_nil, subnAux_nil]
  | succ n ih =>
    intro t ht
    cases t with
    | nil => rw [subnAux_nil, subnAux_nil]
    | cons c s =>
      simp only [List.length_cons] at ht
      cases hm : matchAt startM endM (c :: s) with
      | some p =>
        obtain ⟨i, len⟩ := p
        rw [subnAux_cons_some hm, subnAux_cons_some hm]
        simp only
        rw [ih (s.drop (len - 1)) (by simp only [List.length_drop]; omega)]
      | none =>
        rw [subnAux_cons_none hm, subnAux_cons_none hm]
        simp only
        rw [ih s (by omega)]

theorem prefixAt_window {pat u X : List Char} {k : Nat} (hk : k + pat.length ≤ u.length)
    (h : pat.isPrefixOf ((u ++ X).drop k) = true) : pat.isPrefixOf (u.drop k) = true := by
  rw [isPrefixOf_iff_take] at h ⊢
  rw [List.drop_append_of_le_length (by omega)] at h
  rw [List.take_append_of_le_length (by simp only [List.length_drop]; omega)] at h
  exact h

theorem subnAux_take_eq {startM endM b : List Char} {items : List TmplItem}
    (hexp : ∀ g0 : List Char,
      expandItems g0 (startM ++ ['\n']) ('\n' :: endM) items
        = (startM ++ ['\n']) ++ b ++ ('\n' :: endM)) :
    ∀ (n : Nat) (t : List Char), t.length ≤ n →
      ∀ k, k ≤ (startM ++ ['\n']).length →
        ((subnAux startM endM items t).2).take k = t.take k := by
  intro n
  induction n with
  | zero =>
    intro t ht k hk
    have hs : t = [] := List.length_eq_zero.mp (Nat.le_zero.mp ht)
    subst hs
    rw [subnAux_nil]
  | succ n ih =>
    intro t ht k hk
    cases t with
    | nil => rw [subnAux_nil]
    | cons c s =>
      simp only [List.length_cons] at ht
      cases hm : matchAt startM endM (c :: s) with
      | some p =>
        obtain ⟨i, len⟩ := p
        rw [subnAux_cons_some hm]
        simp only [hexp]
        obtain ⟨hdec, -⟩ := matchAt_some_decomp hm
        conv_rhs => rw [hdec]
        rw [List.append_assoc ((startM ++ ['\n']) ++ b) ('\n' :: endM) _,
          List.append_assoc (startM ++ ['\n']) b _,
          List.append_assoc (startM ++ ['\n']) i _,
          List.take_append_of_le_length hk, List.take_append_of_le_length hk]
      | none =>
        rw [subnAux_cons_none hm]
        simp only
        cases k with
        | zero => simp
        | succ k =>
          simp only [List.take_succ_cons, List.cons.injEq, true_and]
          exact ih s (by omega) k (by omega)

theorem subnAux_no_nlEnd {startM endM : List Char} {items : List TmplItem} :
    ∀ (t : List Char) (j : Nat), j ≤ (startM ++ ['\n']).length →
      (∀ k, j ≤ k → ¬ ('\n' :: endM).isPrefixOf (t.drop k) = true) →
      subnAux startM endM items t = (0, t) := by
  intro t
  induction t with
  | nil => intro j hj hno; rw [subnAux_nil]
  | cons c s ih =>
    intro j hj hno
    have hm : matchAt startM endM (c :: s) = none := by
      by_cases hp : (startM ++ ['\n']).isPrefixOf (c :: s) = true
      · cases hsp : splitAtSub ('\n' :: endM) ((c :: s).drop (startM ++ ['\n']).length) with
        | none => exact matchAt_none_no_nlEnd hsp
        | some p =>
          obtain ⟨pre, post⟩ := p
          exfalso
          have hdec := splitAtSub_some_append hsp
          have hocc : ('\n' :: endM).isPrefixOf
              ((c :: s).drop ((startM ++ ['\n']).length + pre.length)) = true := by
            rw [← List.drop_drop, hdec]
            rw [isPrefixOf_iff_append]
            refine ⟨post, ?_⟩
            rw [List.drop_append_of_le_length (by simp)]
            rw [List.drop_left]
          exact hno _ (by omega) hocc
      · exact matchAt_none_not_startNl hp
    rw [subnAux_cons_none hm]
    have hs : subnAux startM endM items s = (0, s) := by
      refine ih (j - 1) (by omega) ?_
      intro k hk
      have := hno (k + 1) (by omega)
      simpa using this
    rw [hs]

/-- A freshly written region `start\n ++ body ++ \nend` at the head of the
subject matches again with exactly `body` as interior, provided `body`
cannot complete an end-marker line early. -/
theorem subnAux_match_head {startM endM b : List Char} {items : List TmplItem}
    (hexp : ∀ g0 : List Char,
      expandItems g0 (startM ++ ['\n']) ('\n' :: endM) items
        = (startM ++ ['\n']) ++ b ++ ('\n' :: endM))
    (hmin : ∀ k, k < b.length →
      ¬ ('\n' :: endM).isPrefixOf ((b ++ ('\n' :: endM)).drop k) = true)
    (X : List Char) :
    subnAux startM endM items (((startM ++ ['\n']) ++ b ++ ('\n' :: endM)) ++ X)
      = ((subnAux startM endM items X).1 + 1,
         ((startM ++ ['\n']) ++ b ++ ('\n' :: endM)) ++ (subnAux startM endM items X).2) := by
  have hmin2 : ∀ k, k < b.length →
      ¬ ('\n' :: endM).isPrefixOf ((b ++ ('\n' :: endM) ++ X).drop k) = true := by
    intro k hk hpre
    exact hmin k hk (prefixAt_window
      (by simp only [List.length_append, List.length_cons]; omega) hpre)
  have hm := @matchAt_construct startM endM b X hmin2
  have hshape : ((startM ++ ['\n']) ++ b ++ ('\n' :: endM)) ++ X
      = (startM ++ ['\n']) ++ (b ++ ('\n' :: endM) ++ X) := by
    simp [List.append_assoc]
  have h1 : ((startM ++ ['\n']) ++ (b ++ ('\n' :: endM) ++ X)).drop
      ((startM ++ ['\n']).length + b.length + ('\n' :: endM).length) = X := by
    rw [← hshape]
    refine List.drop_left' ?_
    simp only [List.length_append, List.length_cons]
    try omega
  rw [hshape]
  cases hcons : (startM ++ ['\n']) ++ (b ++ ('\n' :: endM) ++ X) with
  | nil => exact absurd hcons (by simp)
  | cons hd tl =>
    rw [hcons] at hm h1
    rw [subnAux_cons_some hm]
    have hdrop : tl.drop
        ((startM ++ ['\n']).length + b.length + ('\n' :: endM).length - 1) = X := by
      rw [show (startM ++ ['\n']).length + b.length + ('\n' :: endM).length
          = ((startM ++ ['\n']).length + b.length + ('\n' :: endM).length - 1) + 1
        from by simp only [List.length_append, List.length_cons]; omega] at h1
      rw [List.drop_succ_cons] at h1
      exact h1
    rw [hdrop, hexp]

/-- Second application of the scan over its own output reproduces both the
match count and the text: the substitution is idempotent when the body is
inserted literally and cannot complete an end-marker line early. -/
theorem subnAux_idem {startM endM b : List Char} {items : List TmplItem}
    (hexp : ∀ g0 : List Char,
      expandItems g0 (startM ++ ['\n']) ('\n' :: endM) items
        = (startM ++ ['\n']) ++ b ++ ('\n' :: endM))
    (hmin : ∀ k, k < b.length →
      ¬ ('\n' :: endM).isPrefixOf ((b ++ ('\n' :: endM)).drop k) = true) :
    ∀ (n : Nat) (t : List Char), t.length ≤ n →
      subnAux startM endM items ((subnAux startM endM items t).2)
        = subnAux startM endM items t := by
  intro n
  induction n with
  | zero =>
    intro t ht
    have hs : t = [] := List.length_eq_zero.mp (Nat.le_zero.mp ht)
    subst hs
    rw [subnAux_nil]
    show subnAux startM endM items [] = (0, [])
    exact subnAux_nil
  | succ n ih =>
    intro t ht
    cases t with
    | nil =>
      rw [subnAux_nil]
      show subnAux startM endM items [] = (0, [])
      exact subnAux_nil
    | cons c s =>
      simp only [List.length_cons] at ht
      cases hm : matchAt startM endM (c :: s) with
      | some p =>
        obtain ⟨i, len⟩ := p
        rw [subnAux_cons_some hm, hexp]
        show subnAux startM endM items
            (((startM ++ ['\n']) ++ b ++ ('\n' :: endM))
              ++ (subnAux startM endM items (s.drop (len - 1))).2) = _
        rw [subnAux_match_head hexp hmin _]
        rw [ih (s.drop (len - 1)) (by simp only [List.length_drop]; omega)]
      | none =>
        rw [subnAux_cons_none hm]
        show subnAux startM endM items (c :: (subnAux startM endM items s).2) = _
        rcases matchAt_none_cases hm with hnp | hsplit
        · have hnp2 : ¬ (startM ++ ['\n']).isPrefixOf
              (c :: (subnAux startM endM items s).2) = true := by
            intro hpre
            apply hnp
            rw [isPrefixOf_iff_take] at hpre ⊢
            have hLpos : 1 ≤ (startM ++ ['\n']).length := by simp
            rw [show (startM ++ ['\n']).length = ((startM ++ ['\n']).length - 1) + 1
              from by omega] at hpre ⊢
            rw [List.take_succ_cons] at hpre ⊢
            rw [subnAux_take_eq hexp n s (by omega) ((startM ++ ['\n']).length - 1)
              (by omega)] at hpre
            exact hpre
          rw [subnAux_cons_none (matchAt_none_not_startNl hnp2)]
          rw [ih s (by omega)]
        · have hnone := splitAtSub_none hsplit
          have hLpos : 1 ≤ (startM ++ ['\n']).length := by simp
          have hnoEnd : ∀ k, (startM ++ ['\n']).length - 1 ≤ k →
              ¬ ('\n' :: endM).isPrefixOf (s.drop k) = true := by
            intro k hk hpre
            have hd2 : ('\n' :: endM).isPrefixOf ((c :: s).drop (k + 1)) = true := by
              rw [List.drop_succ_cons]
              exact hpre
            rw [isPrefixOf_iff_append] at hd2
            obtain ⟨u, hu⟩ := hd2
            refine hnone (((c :: s).drop (startM ++ ['\n']).length).take
              (k + 1 - (startM ++ ['\n']).length)) u ?_
            conv_lhs => rw [← List.take_append_drop (k + 1 - (startM ++ ['\n']).length)
              ((c :: s).drop (startM ++ ['\n']).length)]
            rw [List.drop_drop]
            rw [show (startM ++ ['\n']).length + (k + 1 - (startM ++ ['\n']).length) = k + 1
              from by omega]
            rw [hu, ← List.append_assoc]
          have hs0 : subnAux startM endM items s = (0, s) :=
            subnAux_no_nlEnd s ((startM ++ ['\n']).length - 1) (by omega) hnoEnd
          rw [hs0]
          show subnAux startM endM items (c :: s) = ((0 : Nat), c :: s)
          rw [subnAux_cons_none hm, hs0]

/-- When the pattern matched exactly once, the subject splits as
`pre ++ start\n ++ interior ++ \nend ++ post` and the scan only replaced
the interior. -/
theorem subnAux_count_one {startM endM b : List Char} {items : List TmplItem}
    (hexp : ∀ g0 : List Char,
      expandItems g0 (startM ++ ['\n']) ('\n' :: endM) items
        = (startM ++ ['\n']) ++ b ++ ('\n' :: endM)) :
    ∀ t : List Char, (subnAux startM endM items t).1 = 1 →
      ∃ pre i post, t = pre ++ ((startM ++ ['\n']) ++ i ++ ('\n' :: endM) ++ post)
        ∧ (subnAux startM endM items t).2
            = pre ++ ((startM ++ ['\n']) ++ b ++ ('\n' :: endM) ++ post) := by
  intro t
  induction t with
  | nil => intro h; rw [subnAux_nil] at h; simp at h
  | cons c s ih =>
    intro h
    cases hm : matchAt startM endM (c :: s) with
    | some p =>
      obtain ⟨i, len⟩ := p
      rw [subnAux_cons_some hm] at h ⊢
      simp only at h
      have h0 : (subnAux startM endM items (s.drop (len - 1))).1 = 0 := by omega
      have hres := subnAux_count_zero _ h0
      obtain ⟨hdec, hlen⟩ := matchAt_some_decomp hm
      have hlen1 : 1 ≤ len := by
        rw [hlen]
        simp only [List.length_append, List.length_cons]
        omega
      have hdrop : s.drop (len - 1) = (c :: s).drop len := by
        conv_rhs => rw [show len = (len - 1) + 1 from by omega]
        rw [List.drop_succ_cons]
      refine ⟨[], i, (c :: s).drop len, ?_, ?_⟩
      · simpa using hdec
      · rw [hexp, hres, hdrop]
        simp [List.append_assoc]
    | none =>
      rw [subnAux_cons_none hm] at h ⊢
      simp only at h
      obtain ⟨pre, i, post, hdec, hres⟩ := ih h
      refine ⟨c :: pre, i, post, ?_, ?_⟩
      · simp only [List.cons_append, List.cons.injEq, true_and]
        exact hdec
      · simp only [List.cons_append, List.cons.injEq, true_and]
        exact hres

/-- `replace_section` in terms of the scan: `ValueError` exactly when the
count is zero, the rewritten text otherwise. -/
theorem replace_section_eq {content startM endM b : List Char} {items : List TmplItem}
    (hp : parseTemplateRun (templateOf b) = some items) :
    replace_section content startM endM b
      = if (subnAux startM endM items content).1 = 0
        then .error (.valueError (markersNotFoundMsg startM endM))
        else .ok (subnAux startM endM items content).2 := by
  simp only [replace_section, hp, subnRun_eq_subnAux]

/-- The match count does not depend on the replacement template:
`countMatches` computes it. -/
theorem countMatches_eq {startM endM content : List Char} (items : List TmplItem) :
    countMatches startM endM content = (subnAux startM endM items content).1 := by
  unfold countMatches
  rw [subnRun_eq_subnAux]
  exact subnAux_count_items [] items content.length content (le_refl _)

/-! ### The lexicographic order used by `sorted` -/

theorem lexLe_total : ∀ a b : List Char, lexLe a b = true ∨ lexLe b a = true := by
  intro a
  induction a with
  | nil => intro b; left; rfl
  | cons x s ih =>
    intro b
    cases b with
    | nil => right; rfl
    | cons y t =>
      rcases lt_trichotomy x y with hlt | heq | hgt
      · left; simp [lexLe, hlt]
      · subst heq
        rcases ih t with h | h
        · left; simp [lexLe, h]
        · right; simp [lexLe, h]
      · right; simp [lexLe, hgt]

theorem lexLe_trans : ∀ a b c : List Char,
    lexLe a b = true → lexLe b c = true → lexLe a c = true := by
  intro a
  induction a with
  | nil => intro b c _ _; rfl
  | cons x s ih =>
    intro b c hab hbc
    cases b with
    | nil => simp [lexLe] at hab
    | cons y t =>
      cases c with
      | nil => simp [lexLe] at hbc
      | cons z u =>
        simp only [lexLe, Bool.or_eq_true, Bool.and_eq_true, decide_eq_true_eq] at hab hbc ⊢
        rcases hab with hxy | ⟨hxy, hst⟩
        · rcases hbc with hyz | ⟨hyz, htu⟩
          · exact Or.inl (lt_trans hxy hyz)
          · exact Or.inl (hyz ▸ hxy)
        · rcases hbc with hyz | ⟨hyz, htu⟩
          · exact Or.inl (hxy ▸ hyz)
          · exact Or.inr ⟨hxy.trans hyz, ih t u hst htu⟩

theorem lexLe_antisymm : ∀ a b : List Char,
    lexLe a b = true → lexLe b a = true → a = b := by
  intro a
  induction a with
  | nil =>
    intro b _ hba
    cases b with
    | nil => rfl
    | cons y t => simp [lexLe] at hba
  | cons x s ih =>
    intro b hab hba
    cases b with
    | nil => simp [lexLe] at hab
    | cons y t =>
      simp only [lexLe, Bool.or_eq_true, Bool.and_eq_true, decide_eq_true_eq] at hab hba
      rcases hab with hxy | ⟨hxy, hst⟩
      · rcases hba with hyx | ⟨hyx, -⟩
        · exact absurd (lt_trans hxy hyx) (lt_irrefl x)
        · exact absurd (hyx ▸ hxy) (lt_irrefl x)
      · rcases hba with hyx | ⟨-, hts⟩
        · exact absurd (hxy ▸ hyx) (lt_irrefl x)
        · rw [hxy, ih t hst hts]

instance : IsTotal (List Char) (fun a b => lexLe a b = true) := ⟨lexLe_total⟩

instance : IsTrans (List Char) (fun a b => lexLe a b = true) := ⟨lexLe_trans⟩

theorem firstPos_mem_lt : ∀ {l : List (List Char)} {x : List Char},
    x ∈ l → firstPos x l < l.length := by
  intro l
  induction l with
  | nil => intro x h; simp at h
  | cons y t ih =>
    intro x h
    by_cases hy : y = x
    · simp [firstPos, hy]
    · have hx : x ∈ t := by
        rcases List.mem_cons.mp h with h1 | h1
        · exact absurd h1.symm hy
        · exact h1
      simp only [firstPos, if_neg hy, List.length_cons]
      exact Nat.succ_lt_succ (ih hx)

theorem sorted_firstPos_lt {l : List (List Char)}
    (hs : List.Sorted (fun a b => lexLe a b = true) l) :
    ∀ {a b : List Char}, a ∈ l → b ∈ l → lexLe a b = true → a ≠ b →
      firstPos a l < firstPos b l := by
  induction l with
  | nil => intro a b ha; simp at ha
  | cons y t ih =>
    intro a b ha hb hab hne
    rw [List.sorted_cons] at hs
    obtain ⟨hpair, hst⟩ := hs
    by_cases hya : y = a
    · have hyb : ¬ y = b := fun h => hne (hya.symm.trans h)
      simp only [firstPos, if_pos hya, if_neg hyb]
      omega
    · have hat : a ∈ t := by
        rcases List.mem_cons.mp ha with h1 | h1
        · exact absurd h1.symm hya
        · exact h1
      by_cases hyb : y = b
      · exfalso
        subst hyb
        exact hne (lexLe_antisymm a y hab (hpair a hat))
      · have hbt : b ∈ t := by
          rcases List.mem_cons.mp hb with h1 | h1
          · exact absurd h1.symm hyb
          · exact h1
        simp only [firstPos, if_neg hya, if_neg hyb]
        exact Nat.succ_lt_succ (ih hst hat hbt hab hne)

theorem firstPos_map_inj {f : List Char → List Char}
    (hf : ∀ u v : List Char, f u = f v → u = v) :
    ∀ (l : List (List Char)) (x : List Char),
      firstPos (f x) (l.map f) = firstPos x l := by
  intro l x
  induction l with
  | nil => rfl
  | cons y t ih =>
    simp only [List.map_cons, firstPos]
    by_cases hy : y = x
    · rw [if_pos (by rw [hy]), if_pos hy]
    · rw [if_neg (fun h => hy (hf y x h)), if_neg hy, ih]

theorem quotedLangLine_inj : ∀ u v : List Char,
    quotedLangLine u = quotedLangLine v → u = v := by
  intro u v h
  unfold quotedLangLine at h
  have h2 := List.append_cancel_right h
  exact List.append_cancel_left h2

theorem langsFeatureLine_inj : ∀ u v : List Char,
    langsFeatureLine u = langsFeatureLine v → u = v := by
  intro u v h
  unfold langsFeatureLine at h
  have hlen : u.length = v.length := by
    have h2 := congrArg List.length h
    simp only [List.length_append, List.length_drop] at h2
    omega
  simp only [List.append_assoc] at h
  have h3 := congrArg (List.take u.length) h
  rw [List.take_left, List.take_left' hlen.symm] at h3
  exact h3

theorem cliFeatureLine_inj : ∀ u v : List Char,
    cliFeatureLine u = cliFeatureLine v → u = v := by
  intro u v h
  unfold cliFeatureLine at h
  have hlen : u.length = v.length := by
    have h2 := congrArg List.length h
    simp only [List.length_append] at h2
    omega
  simp only [List.append_assoc] at h
  have h3 := congrArg (List.take u.length) h
  rw [List.take_left, List.take_left' hlen.symm] at h3
  exact h3

theorem langsDepLine_inj {version u v : List Char}
    (hu : langPre.isPrefixOf u = true) (hv : langPre.isPrefixOf v = true)
    (h : langsDepLine version u = langsDepLine version v) : u = v := by
  unfold langsDepLine at h
  have hlen : (u.drop 5).length = (v.drop 5).length := by
    have h2 := congrArg List.length h
    simp only [List.length_append] at h2
    omega
  simp only [List.append_assoc] at h
  have h3 := List.append_cancel_left h
  have h4 := congrArg (List.take (u.drop 5).length) h3
  rw [List.take_left, List.take_left' hlen.symm] at h4
  obtain ⟨tu, rfl⟩ := isPrefixOf_iff_append.mp hu
  obtain ⟨tv, rfl⟩ := isPrefixOf_iff_append.mp hv
  rw [List.drop_left' (by decide), List.drop_left' (by decide)] at h4
  rw [h4]

theorem firstPos_map_inj_on {f : List Char → List Char} :
    ∀ (l : List (List Char)) (x : List Char),
      (∀ y ∈ l, f y = f x → y = x) →
      firstPos (f x) (l.map f) = firstPos x l := by
  intro l x
  induction l with
  | nil => intro hf; rfl
  | cons y t ih =>
    intro hf
    simp only [List.map_cons, firstPos]
    by_cases hy : y = x
    · rw [if_pos (by rw [hy]), if_pos hy]
    · rw [if_neg (fun h => hy (hf y (List.mem_cons_self y t) h)), if_neg hy,
        ih (fun z hz => hf z (List.mem_cons_of_mem y hz))]

/-! ### The fetcher, the auditor and the updaters -/

theorem mem_sortLangs {fs : List (List Char)} {x : List Char} :
    x ∈ sortLangs fs ↔ x ∈ fs ∧ langPre.isPrefixOf x = true := by
  unfold sortLangs
  rw [List.mem_insertionSort, List.mem_filter]

theorem sortLangs_sorted (fs : List (List Char)) :
    List.Sorted (fun a b => lexLe a b = true) (sortLangs fs) :=
  List.sorted_insertionSort _ _

theorem fetch_ok_shape {versions : List VersionEntry} {vq : Option (List Char)}
    {ver : List Char} {langs : List (List Char)}
    (h : fetch_lang_features versions vq = .ok (ver, langs)) :
    ∃ fs, langs = sortLangs fs := by
  unfold fetch_lang_features at h
  cases vq with
  | some v =>
    dsimp only at h
    by_cases hv : v = []
    · rw [if_pos hv] at h
      cases versions with
      | nil => exact absurd h (by simp)
      | cons e rest =>
        dsimp only at h
        simp only [Except.ok.injEq, Prod.mk.injEq] at h
        exact ⟨e.features, h.2.symm⟩
    · rw [if_neg hv] at h
      cases hf : versions.find? (fun e => e.num == v) with
      | none => rw [hf] at h; exact absurd h (by simp)
      | some e =>
        rw [hf] at h
        simp only [Except.ok.injEq, Prod.mk.injEq] at h
        exact ⟨e.features, h.2.symm⟩
  | none =>
    dsimp only at h
    cases versions with
    | nil => exact absurd h (by simp)
    | cons e rest =>
      dsimp only at h
      simp only [Except.ok.injEq, Prod.mk.injEq] at h
      exact ⟨e.features, h.2.symm⟩

theorem parseBuiltinStep_mem {acc : List (List Char)} {line x : List Char}
    (h : x ∈ parseBuiltinStep acc line) : x ∈ acc ∨ langPre.isPrefixOf x = true := by
  unfold parseBuiltinStep at h
  dsimp only at h
  split at h
  · split at h
    · split at h
      · split at h
        · rename_i hpre
          unfold addLang at h
          split at h
          · exact Or.inl h
          · rcases List.mem_append.mp h with h1 | h1
            · exact Or.inl h1
            · right
              rw [List.mem_singleton.mp h1]
              exact hpre
        · exact Or.inl h
      · exact Or.inl h
    · exact Or.inl h
  · exact Or.inl h

theorem parse_builtin_mem {content x : List Char}
    (h : x ∈ parse_builtin_langs content) : langPre.isPrefixOf x = true := by
  have H : ∀ (lines : List (List Char)) (acc : List (List Char)),
      (∀ y ∈ acc, langPre.isPrefixOf y = true) →
      ∀ y ∈ lines.foldl parseBuiltinStep acc, langPre.isPrefixOf y = true := by
    intro lines
    induction lines with
    | nil => intro acc hacc y hy; exact hacc y hy
    | cons line rest ih =>
      intro acc hacc y hy
      simp only [List.foldl_cons] at hy
      refine ih _ ?_ y hy
      intro z hz
      rcases parseBuiltinStep_mem hz with h1 | h1
      · exact hacc z h1
      · exact h1
  exact H _ [] (by simp) x h

theorem check_mem_added {builtin x : List Char} {langs : List (List Char)} :
    x ∈ (check_builtin_consistency builtin langs).1
      ↔ x ∈ langs ∧ ¬ x ∈ parse_builtin_langs builtin := by
  unfold check_builtin_consistency
  rw [List.mem_insertionSort, List.mem_filter, List.mem_dedup]
  simp

theorem check_mem_removed {builtin x : List Char} {langs : List (List Char)} :
    x ∈ (check_builtin_consistency builtin langs).2
      ↔ x ∈ parse_builtin_langs builtin ∧ ¬ x ∈ langs := by
  unfold check_builtin_consistency
  rw [List.mem_insertionSort, List.mem_filter]
  simp

theorem update_branch_spec {t content : List Char} {dry b : Bool} {w : Option (List Char)}
    (h : (if t = content then (Except.ok (false, none) : Except PyErr (Bool × Option (List Char)))
          else if dry = true then .ok (true, none) else .ok (true, some t)) = .ok (b, w)) :
    (b = true ↔ t ≠ content) ∧ (w = if b = true ∧ dry = false then some t else none) := by
  by_cases ht : t = content
  · rw [if_pos ht] at h
    simp only [Except.ok.injEq, Prod.mk.injEq] at h
    obtain ⟨hb, hw⟩ := h
    subst hb; subst hw
    constructor
    · simp [ht]
    · simp
  · rw [if_neg ht] at h
    by_cases hd : dry = true
    · rw [if_pos hd] at h
      simp only [Except.ok.injEq, Prod.mk.injEq] at h
      obtain ⟨hb, hw⟩ := h
      subst hb; subst hw
      constructor
      · simp [ht]
      · simp [hd]
    · rw [if_neg hd] at h
      simp only [Except.ok.injEq, Prod.mk.injEq] at h
      obtain ⟨hb, hw⟩ := h
      subst hb; subst hw
      constructor
      · simp [ht]
      · simp only [Bool.not_eq_true] at hd
        simp [hd]

theorem update_plotnik_langs_spec {content version : List Char} {langs : List (List Char)}
    {dry b : Bool} {w : Option (List Char)}
    (h : update_plotnik_langs content version langs dry = .ok (b, w)) :
    ∃ t, computeLangsText content version langs = .ok t
      ∧ (b = true ↔ t ≠ content)
      ∧ (w = if b = true ∧ dry = false then some t else none) := by
  unfold update_plotnik_langs at h
  cases hc : computeLangsText content version langs with
  | error e => rw [hc] at h; exact absurd h (by simp)
  | ok t =>
    rw [hc] at h
    exact ⟨t, rfl, update_branch_spec h⟩

theorem update_plotnik_cli_spec {content : List Char} {langs : List (List Char)}
    {dry b : Bool} {w : Option (List Char)}
    (h : update_plotnik_cli content langs dry = .ok (b, w)) :
    ∃ t, computeCliText content langs = .ok t
      ∧ (b = true ↔ t ≠ content)
      ∧ (w = if b = true ∧ dry = false then some t else none) := by
  unfold update_plotnik_cli at h
  cases hc : computeCliText content langs with
  | error e => rw [hc] at h; exact absurd h (by simp)
  | ok t =>
    rw [hc] at h
    exact ⟨t, rfl, update_branch_spec h⟩

/-! ### The main entry point -/

theorem fetch_version_not_found {versions : List VersionEntry} {v : List Char}
    (hv : v ≠ []) (h : versions.find? (fun e => e.num == v) = none) :
    fetch_lang_features versions (some v)
      = .error (.valueError (versionNotFoundMsg v versions)) := by
  unfold fetch_lang_features
  dsimp only
  rw [if_neg hv, h]

theorem mainModel_fetch_error {versions : List VersionEntry} {vq : Option (List Char)}
    {dry ci postOk : Bool} {fs : FS} {e : PyErr}
    (h : fetch_lang_features versions vq = .error e) :
    mainModel versions vq dry ci postOk fs = .error (e, fs) := by
  unfold mainModel
  rw [h]

theorem mainModel_ok_exit {versions : List VersionEntry} {vq : Option (List Char)}
    {dry ci postOk : Bool} {fs fs' : FS} {code : Nat}
    (h : mainModel versions vq dry ci postOk fs = .ok (fs', code)) :
    ∃ version langs,
      fetch_lang_features versions vq = .ok (version, langs)
      ∧ fs'.builtinRs = fs.builtinRs
      ∧ (code = 0 ∨ code = 1)
      ∧ (code = 0 ↔ ((check_builtin_consistency fs.builtinRs langs).1 = []
          ∧ (check_builtin_consistency fs.builtinRs langs).2 = [])) := by
  unfold mainModel at h
  cases hf : fetch_lang_features versions vq with
  | error e => rw [hf] at h; exact absurd h (by simp)
  | ok p =>
    obtain ⟨version, langs⟩ := p
    rw [hf] at h
    dsimp only at h
    cases hu1 : update_plotnik_langs fs.langsToml version langs dry with
    | error e => rw [hu1] at h; exact absurd h (by simp)
    | ok q1 =>
      obtain ⟨b1, w1⟩ := q1
      rw [hu1] at h
      dsimp only at h
      have hb1 : (writeLangs fs w1).builtinRs = fs.builtinRs := by
        cases w1 <;> rfl
      cases hu2 : update_plotnik_cli (writeLangs fs w1).cliToml langs dry with
      | error e => rw [hu2] at h; exact absurd h (by simp)
      | ok q2 =>
        obtain ⟨b2, w2⟩ := q2
        rw [hu2] at h
        dsimp only at h
        have hb2 : ∀ w2 : Option (List Char),
            (writeCli (writeLangs fs w1) w2).builtinRs = (writeLangs fs w1).builtinRs := by
          intro w
          cases w <;> rfl
        rw [hb2, hb1] at h
        by_cases hdrift : (check_builtin_consistency fs.builtinRs langs).1 = []
            ∧ (check_builtin_consistency fs.builtinRs langs).2 = []
        · rw [if_pos hdrift] at h
          simp only [Except.ok.injEq, Prod.mk.injEq] at h
          obtain ⟨hfs, hcode⟩ := h
          refine ⟨version, langs, rfl, ?_, ?_, ?_⟩
          · rw [← hfs, hb2, hb1]
          · exact Or.inl hcode.symm
          · rw [← hcode]
            simp [hdrift]
        · rw [if_neg hdrift] at h
          by_cases hci : ci = true ∧ postOk = false
          · rw [if_pos hci] at h
            exact absurd h (by simp)
          · rw [if_neg hci] at h
            simp only [Except.ok.injEq, Prod.mk.injEq] at h
            obtain ⟨hfs, hcode⟩ := h
            refine ⟨version, langs, rfl, ?_, ?_, ?_⟩
            · rw [← hfs, hb2, hb1]
            · exact Or.inr hcode.symm
            · rw [← hcode]
              simp [hdrift]

/-! ### The claims -/

/-- C1 counterexample: on a document in which the marker pair occurs
twice, `replace_section` does not raise; it silently rewrites both sites
(`re.subn` with no count replaces every occurrence and the code only
checks `count == 0`). -/
theorem claim_C1_counterexample :
    countMatches "S".data "E".data "S\nA\nE\nS\nB\nE".data = 2
    ∧ replace_section "S\nA\nE\nS\nB\nE".data "S".data "E".data "X".data
        = .ok "S\nX\nE\nS\nX\nE".data := by
  constructor
  · decide
  · decide

/-- C1 (amended): `replace_section` raises `MarkerNotFound` exactly when
the pattern matches zero times; whenever it matches at least once (also
more than once) the call succeeds and returns the scan's rewrite of every
match. -/
theorem claim_C1_zero_count_error {content startM endM b : List Char} {items : List TmplItem}
    (hp : parseTemplateRun (templateOf b) = some items) :
    (replace_section content startM endM b
        = .error (.valueError (markersNotFoundMsg startM endM))
      ↔ countMatches startM endM content = 0)
    ∧ (countMatches startM endM content ≠ 0 →
        replace_section content startM endM b
          = .ok (subnAux startM endM items content).2) := by
  rw [countMatches_eq items, replace_section_eq hp]
  constructor
  · constructor
    · intro h
      by_contra hc
      rw [if_neg hc] at h
      exact absurd h (by simp)
    · intro h
      rw [if_pos h]
  · intro h
    rw [if_neg h]

theorem claim_C1_zero_count_error_witness :
    parseTemplateRun (templateOf "X".data)
        = some [TmplItem.group 1, TmplItem.lit ['X'], TmplItem.group 2]
    ∧ (replace_section "no markers".data "S".data "E".data "X".data
        = .error (.valueError (markersNotFoundMsg "S".data "E".data))
      ↔ countMatches "S".data "E".data "no markers".data = 0) :=
  ⟨by decide,
    (@claim_C1_zero_count_error "no markers".data "S".data "E".data "X".data
      [TmplItem.group 1, TmplItem.lit ['X'], TmplItem.group 2] (by decide)).1⟩

/-- C2 counterexample: `replace_section` is not idempotent in its body
argument as claimed.  With `new_body = "q\nE\nS\nr"` the first successful
application manufactures a second marker pair, so the second application
rewrites two sites and the text keeps growing. -/
theorem claim_C2_counterexample :
    replace_section "S\nX\nE".data "S".data "E".data "q\nE\nS\nr".data
      = .ok "S\nq\nE\nS\nr\nE".data
    ∧ replace_section "S\nq\nE\nS\nr\nE".data "S".data "E".data "q\nE\nS\nr".data
      = .ok "S\nq\nE\nS\nr\nE\nS\nq\nE\nS\nr\nE".data
    ∧ "S\nq\nE\nS\nr\nE\nS\nq\nE\nS\nr\nE".data ≠ "S\nq\nE\nS\nr\nE".data := by
  refine ⟨by decide, by decide, by decide⟩

/-- C2 (amended): `replace_section` is idempotent in its body argument
provided the body contains no backslash (so the replacement template
inserts it literally) and the body cannot complete an end-marker line
early, i.e. `\n ++ end_marker` first occurs in `body ++ \n ++ end_marker`
only at the very end.  Then a second application over the first result
succeeds and returns the same text. -/
theorem claim_C2_idempotent {content startM endM b r : List Char}
    (hb : '\\' ∉ b)
    (hmin : ∀ k, k < b.length →
      ¬ ('\n' :: endM).isPrefixOf ((b ++ ('\n' :: endM)).drop k) = true)
    (h : replace_section content startM endM b = .ok r) :
    replace_section r startM endM b = .ok r := by
  have hp := parseTemplateRun_templateOf hb
  have hexp : ∀ g0 : List Char,
      expandItems g0 (startM ++ ['\n']) ('\n' :: endM)
          (.group 1 :: ((b.map fun c => TmplItem.lit [c]) ++ [.group 2]))
        = (startM ++ ['\n']) ++ b ++ ('\n' :: endM) := fun _ => expandItems_templateOf
  rw [replace_section_eq hp] at h ⊢
  by_cases h0 : (subnAux startM endM
      (.group 1 :: ((b.map fun c => TmplItem.lit [c]) ++ [.group 2])) content).1 = 0
  · rw [if_pos h0] at h
    exact absurd h (by simp)
  · rw [if_neg h0] at h
    simp only [Except.ok.injEq] at h
    subst h
    have hidem := subnAux_idem hexp hmin content.length content (le_refl _)
    rw [hidem, if_neg h0]

theorem claim_C2_idempotent_witness :
    replace_section "S\nY\nE".data "S".data "E".data "Y".data = .ok "S\nY\nE".data :=
  claim_C2_idempotent (by decide) (by decide)
    (show replace_section "S\nX\nE".data "S".data "E".data "Y".data
      = .ok "S\nY\nE".data by decide)

/-- C3 counterexample: the frame holds, but the interior is not replaced
with `new_body` itself: a backslash escape in `new_body` (here `\t`) is
interpreted by the replacement template, so the body written between the
markers differs from `new_body`. -/
theorem claim_C3_counterexample :
    countMatches "S".data "E".data "S\nX\nE".data = 1
    ∧ replace_section "S\nX\nE".data "S".data "E".data "\\t".data
        = .ok "S\n\t\nE".data
    ∧ "S\n\t\nE".data ≠ "S\n".data ++ "\\t".data ++ "\nE".data := by
  refine ⟨by decide, by decide, by decide⟩

/-- C3 (amended): when the marker pattern occurs exactly once and
`new_body` contains no backslash, a successful `replace_section` splits
the document as `pre ++ start\n ++ interior ++ \nend ++ post` and returns
`pre ++ start\n ++ new_body ++ \nend ++ post`: every byte outside the
span strictly between the marker lines — the marker lines included — is
preserved exactly, and only the interior is replaced with `new_body`
(with a backslash in `new_body`, the interior is its template expansion
instead). -/
theorem claim_C3_frame {content startM endM b r : List Char}
    (hb : '\\' ∉ b)
    (hcount : countMatches startM endM content = 1)
    (h : replace_section content startM endM b = .ok r) :
    ∃ pre i post,
      content = pre ++ ((startM ++ ['\n']) ++ i ++ ('\n' :: endM) ++ post)
      ∧ r = pre ++ ((startM ++ ['\n']) ++ b ++ ('\n' :: endM) ++ post) := by
  have hp := parseTemplateRun_templateOf hb
  have hexp : ∀ g0 : List Char,
      expandItems g0 (startM ++ ['\n']) ('\n' :: endM)
          (.group 1 :: ((b.map fun c => TmplItem.lit [c]) ++ [.group 2]))
        = (startM ++ ['\n']) ++ b ++ ('\n' :: endM) := fun _ => expandItems_templateOf
  rw [countMatches_eq (.group 1 :: ((b.map fun c => TmplItem.lit [c]) ++ [.group 2]))]
    at hcount
  rw [replace_section_eq hp] at h
  rw [if_neg (by omega)] at h
  simp only [Except.ok.injEq] at h
  subst h
  exact subnAux_count_one hexp content hcount

theorem claim_C3_frame_witness :
    ∃ pre i post,
      "A\nS\nX\nE\nB".data = pre ++ (("S".data ++ ['\n']) ++ i ++ ('\n' :: "E".data) ++ post)
      ∧ "A\nS\nY\nE\nB".data
          = pre ++ (("S".data ++ ['\n']) ++ "Y".data ++ ('\n' :: "E".data) ++ post) :=
  claim_C3_frame (by decide) (by decide)
    (show replace_section "A\nS\nX\nE\nB".data "S".data "E".data "Y".data
      = .ok "A\nS\nY\nE\nB".data by decide)

/-- C10: `new_content` is not inserted literally — it is interpolated
into a regex replacement template, so backslash sequences are interpreted
as replacement escapes.  Concretely, for `new_content = "\n"` (backslash,
letter n) the call succeeds on a document with a unique marker pair but
writes a newline character instead of the two literal characters. -/
theorem claim_C10_template_escape :
    replace_section "S\nX\nE".data "S".data "E".data "\\n".data = .ok "S\n\n\nE".data
    ∧ "S\n\n\nE".data ≠ "S\n".data ++ "\\n".data ++ "\nE".data := by
  refine ⟨by decide, by decide⟩

/-- C4: each updater returns `true` iff the newly computed text differs
byte-for-byte from the original content; it writes only when the text
differs and `dry_run` is false; identical text is never written even in
live mode; and in dry-run mode nothing is ever written. -/
theorem claim_C4_change_detection (contentL contentC version : List Char)
    (langs : List (List Char)) (dry : Bool) :
    (∀ (b : Bool) (w : Option (List Char)),
      update_plotnik_langs contentL version langs dry = .ok (b, w) →
      ∃ t, computeLangsText contentL version langs = .ok t
        ∧ (b = true ↔ t ≠ contentL)
        ∧ (w = if b = true ∧ dry = false then some t else none)
        ∧ (dry = true → w = none)
        ∧ (t = contentL → w = none))
    ∧ (∀ (b : Bool) (w : Option (List Char)),
      update_plotnik_cli contentC langs dry = .ok (b, w) →
      ∃ t, computeCliText contentC langs = .ok t
        ∧ (b = true ↔ t ≠ contentC)
        ∧ (w = if b = true ∧ dry = false then some t else none)
        ∧ (dry = true → w = none)
        ∧ (t = contentC → w = none)) := by
  constructor
  · intro b w h
    obtain ⟨t, hc, hb, hw⟩ := update_plotnik_langs_spec h
    refine ⟨t, hc, hb, hw, ?_, ?_⟩
    · intro hd
      rw [hw, hd]
      simp
    · intro ht
      rw [hw]
      have : ¬ b = true := fun hbt => (hb.mp hbt) ht
      simp [this]
  · intro b w h
    obtain ⟨t, hc, hb, hw⟩ := update_plotnik_cli_spec h
    refine ⟨t, hc, hb, hw, ?_, ?_⟩
    · intro hd
      rw [hw, hd]
      simp
    · intro ht
      rw [hw]
      have : ¬ b = true := fun hbt => (hb.mp hbt) ht
      simp [this]

set_option maxRecDepth 1000000 in
theorem claim_C4_change_detection_witness :
    ∃ t, computeLangsText exampleLangsToml "1.0".data ["lang-go".data] = .ok t
      ∧ (true = true ↔ t ≠ exampleLangsToml)
      ∧ ((some exampleLangsTomlNew : Option (List Char))
          = if true = true ∧ false = false then some t else none)
      ∧ (false = true → (some exampleLangsTomlNew : Option (List Char)) = none)
      ∧ (t = exampleLangsToml → (some exampleLangsTomlNew : Option (List Char)) = none) :=
  (claim_C4_change_detection exampleLangsToml exampleCliToml "1.0".data
    ["lang-go".data] false).1 true (some exampleLangsTomlNew) (by decide)

/-- C5: the feature list returned by `fetch_lang_features` is sorted
lexicographically, so any two distinct retained identifiers `a`, `b` with
`a < b` appear in that order — in the list itself and in every generated
block, each built by mapping its line builder over the list in order: the
quoted-identifier block (used by both updaters), the plotnik-langs
feature block, the plotnik-langs dependency block, and the plotnik-cli
re-export block. -/
theorem claim_C5_sorted_output {versions : List VersionEntry} {vq : Option (List Char)}
    {ver : List Char} {langs : List (List Char)}
    (h : fetch_lang_features versions vq = .ok (ver, langs)) :
    List.Sorted (fun a b => lexLe a b = true) langs
    ∧ (∀ a b : List Char, a ∈ langs → b ∈ langs → lexLe a b = true → a ≠ b →
        firstPos a langs < firstPos b langs
        ∧ firstPos (quotedLangLine a) (langs.map quotedLangLine)
            < firstPos (quotedLangLine b) (langs.map quotedLangLine)
        ∧ firstPos (langsFeatureLine a) (langs.map langsFeatureLine)
            < firstPos (langsFeatureLine b) (langs.map langsFeatureLine)
        ∧ firstPos (langsDepLine ver a) (langs.map (langsDepLine ver))
            < firstPos (langsDepLine ver b) (langs.map (langsDepLine ver))
        ∧ firstPos (cliFeatureLine a) (langs.map cliFeatureLine)
            < firstPos (cliFeatureLine b) (langs.map cliFeatureLine)) := by
  obtain ⟨fs, rfl⟩ := fetch_ok_shape h
  refine ⟨sortLangs_sorted fs, ?_⟩
  intro a b ha hb hab hne
  have h1 := sorted_firstPos_lt (sortLangs_sorted fs) ha hb hab hne
  have hpa : langPre.isPrefixOf a = true := (mem_sortLangs.mp ha).2
  have hpb : langPre.isPrefixOf b = true := (mem_sortLangs.mp hb).2
  refine ⟨h1, ?_, ?_, ?_, ?_⟩
  · rw [firstPos_map_inj quotedLangLine_inj, firstPos_map_inj quotedLangLine_inj]
    exact h1
  · rw [firstPos_map_inj langsFeatureLine_inj, firstPos_map_inj langsFeatureLine_inj]
    exact h1
  · rw [firstPos_map_inj_on (sortLangs fs) a
        (fun y hy hfy => langsDepLine_inj (mem_sortLangs.mp hy).2 hpa hfy),
      firstPos_map_inj_on (sortLangs fs) b
        (fun y hy hfy => langsDepLine_inj (mem_sortLangs.mp hy).2 hpb hfy)]
    exact h1
  · rw [firstPos_map_inj cliFeatureLine_inj, firstPos_map_inj cliFeatureLine_inj]
    exact h1

theorem claim_C5_sorted_output_witness :
    List.Sorted (fun a b => lexLe a b = true) ["lang-go".data, "lang-rust".data]
    ∧ (∀ a b : List Char, a ∈ ["lang-go".data, "lang-rust".data]
        → b ∈ ["lang-go".data, "lang-rust".data] → lexLe a b = true → a ≠ b →
        firstPos a ["lang-go".data, "lang-rust".data]
            < firstPos b ["lang-go".data, "lang-rust".data]
        ∧ firstPos (quotedLangLine a) ([ "lang-go".data, "lang-rust".data].map quotedLangLine)
            < firstPos (quotedLangLine b) ([ "lang-go".data, "lang-rust".data].map quotedLangLine)
        ∧ firstPos (langsFeatureLine a) ([ "lang-go".data, "lang-rust".data].map langsFeatureLine)
            < firstPos (langsFeatureLine b)
                ([ "lang-go".data, "lang-rust".data].map langsFeatureLine)
        ∧ firstPos (langsDepLine "1.0".data a)
                ([ "lang-go".data, "lang-rust".data].map (langsDepLine "1.0".data))
            < firstPos (langsDepLine "1.0".data b)
                ([ "lang-go".data, "lang-rust".data].map (langsDepLine "1.0".data))
        ∧ firstPos (cliFeatureLine a) ([ "lang-go".data, "lang-rust".data].map cliFeatureLine)
            < firstPos (cliFeatureLine b)
                ([ "lang-go".data, "lang-rust".data].map cliFeatureLine)) :=
  claim_C5_sorted_output
    (show fetch_lang_features [⟨"1.0".data, ["lang-rust".data, "serde".data, "lang-go".data]⟩]
        none = .ok ("1.0".data, ["lang-go".data, "lang-rust".data]) by decide)

/-- C6: an identifier without the `lang-` namespace marker never appears
in the list returned by `fetch_lang_features` (hence in no generated
block, which are maps over that list) and never in the declared set
extracted by `parse_builtin_langs`. -/
theorem claim_C6_namespace_filtering :
    (∀ (versions : List VersionEntry) (vq : Option (List Char)) (ver : List Char)
        (langs : List (List Char)),
      fetch_lang_features versions vq = .ok (ver, langs) →
      ∀ x ∈ langs, langPre.isPrefixOf x = true)
    ∧ (∀ content x : List Char,
        x ∈ parse_builtin_langs content → langPre.isPrefixOf x = true) := by
  constructor
  · intro versions vq ver langs h x hx
    obtain ⟨fs, rfl⟩ := fetch_ok_shape h
    exact (mem_sortLangs.mp hx).2
  · intro content x hx
    exact parse_builtin_mem hx

theorem claim_C6_namespace_filtering_witness :
    langPre.isPrefixOf "lang-go".data = true :=
  claim_C6_namespace_filtering.1 [⟨"1.0".data, ["lang-go".data, "serde".data]⟩] none
    "1.0".data ["lang-go".data] (by decide) "lang-go".data (by decide)

/-- C7: the audit returns exactly the two set differences — `added` is
the catalog minus the declared set, `removed` is the declared set minus
the catalog — and the two are always disjoint. -/
theorem claim_C7_set_difference (builtin : List Char) (langs : List (List Char)) :
    (∀ x : List Char, x ∈ (check_builtin_consistency builtin langs).1
        ↔ (x ∈ langs ∧ ¬ x ∈ parse_builtin_langs builtin))
    ∧ (∀ x : List Char, x ∈ (check_builtin_consistency builtin langs).2
        ↔ (x ∈ parse_builtin_langs builtin ∧ ¬ x ∈ langs))
    ∧ (∀ x : List Char, ¬ (x ∈ (check_builtin_consistency builtin langs).1
        ∧ x ∈ (check_builtin_consistency builtin langs).2)) := by
  refine ⟨fun x => check_mem_added, fun x => check_mem_removed, ?_⟩
  intro x ⟨h1, h2⟩
  exact (check_mem_removed.mp h2).2 (check_mem_added.mp h1).1

theorem claim_C7_set_difference_witness :
    "lang-rust".data ∈ (check_builtin_consistency exampleBuiltinRs
        ["lang-rust".data, "lang-go".data]).1
      ↔ ("lang-rust".data ∈ ["lang-rust".data, "lang-go".data]
        ∧ ¬ "lang-rust".data ∈ parse_builtin_langs exampleBuiltinRs) :=
  (claim_C7_set_difference exampleBuiltinRs ["lang-rust".data, "lang-go".data]).1
    "lang-rust".data

set_option maxRecDepth 1000000 in
/-- C8 counterexample: the requested version `""` matches no catalog
entry, yet the fetch does not raise — `if version:` treats the empty
string as falsy, so the script silently selects `versions[0]` — and the
run goes on to rewrite both Cargo.toml files and exit 0 instead of
aborting before file IO. -/
theorem claim_C8_counterexample :
    List.find? (fun e => e.num == "".data)
        [(⟨"1.0".data, ["lang-go".data]⟩ : VersionEntry)] = none
    ∧ fetch_lang_features [⟨"1.0".data, ["lang-go".data]⟩] (some "".data)
        = .ok ("1.0".data, ["lang-go".data])
    ∧ mainModel [⟨"1.0".data, ["lang-go".data]⟩] (some "".data) false false true
          ⟨exampleLangsToml, exampleCliToml, exampleBuiltinRs⟩
        = .ok (⟨exampleLangsTomlNew, exampleCliTomlNew, exampleBuiltinRs⟩, 0) := by
  refine ⟨by decide, by decide, by decide⟩

/-- C8 (amended): when the requested version is non-empty and matches no
catalog entry, the fetch fails with a `ValueError` whose message is built
from the requested version and the (at most ten) first available version
strings, and the whole run aborts with that error before any file is
touched: the file-system state returned with the error is the input
state.  (An empty requested version is falsy, so `if version:` silently
falls back to the first catalog entry instead of raising.) -/
theorem claim_C8_version_not_found {versions : List VersionEntry} {v : List Char}
    (hv : v ≠ []) (h : versions.find? (fun e => e.num == v) = none) :
    fetch_lang_features versions (some v)
        = .error (.valueError (versionNotFoundMsg v versions))
    ∧ versionNotFoundMsg v versions
        = "Version ".data ++ v ++ " not found. Available: ".data
          ++ pyReprStrList ((versions.take 10).map (fun e => e.num))
    ∧ ((versions.take 10).map (fun e => e.num)).length ≤ 10
    ∧ (∀ (dry ci postOk : Bool) (fs : FS),
        mainModel versions (some v) dry ci postOk fs
          = .error (.valueError (versionNotFoundMsg v versions), fs)) := by
  have hf := fetch_version_not_found hv h
  refine ⟨hf, ?_, ?_, ?_⟩
  · unfold versionNotFoundMsg
    simp [List.append_assoc]
  · simp only [List.length_map, List.length_take]
    omega
  · intro dry ci postOk fs
    exact mainModel_fetch_error hf

theorem claim_C8_version_not_found_witness :
    fetch_lang_features [⟨"1.0".data, []⟩] (some "2.0".data)
      = .error (.valueError (versionNotFoundMsg "2.0".data [⟨"1.0".data, []⟩])) :=
  (claim_C8_version_not_found (by decide) (by decide)).1

/-- C9: on every run that completes the fetch, both updates and the
audit, the exit status is 0 exactly when the audit's `added` and
`removed` sets are both empty, and 1 otherwise — for every combination of
the dry-run and CI flags (a CI-mode comment failure aborts with an
exception instead, which is also a non-zero exit). -/
theorem claim_C9_exit_status {versions : List VersionEntry} {vq : Option (List Char)}
    {dry ci postOk : Bool} {fs fs' : FS} {code : Nat}
    (h : mainModel versions vq dry ci postOk fs = .ok (fs', code)) :
    ∃ version langs,
      fetch_lang_features versions vq = .ok (version, langs)
      ∧ (code = 0 ∨ code = 1)
      ∧ (code = 0 ↔ ((check_builtin_consistency fs.builtinRs langs).1 = []
          ∧ (check_builtin_consistency fs.builtinRs langs).2 = [])) := by
  obtain ⟨version, langs, hf, -, hc01, hiff⟩ := mainModel_ok_exit h
  exact ⟨version, langs, hf, hc01, hiff⟩

set_option maxRecDepth 1000000 in
theorem claim_C9_exit_status_witness :
    ∃ version langs,
      fetch_lang_features [⟨"1.0".data, ["lang-go".data]⟩] none = .ok (version, langs)
      ∧ ((0 : Nat) = 0 ∨ (0 : Nat) = 1)
      ∧ ((0 : Nat) = 0 ↔ ((check_builtin_consistency exampleBuiltinRs langs).1 = []
          ∧ (check_builtin_consistency exampleBuiltinRs langs).2 = [])) :=
  claim_C9_exit_status
    (show mainModel [⟨"1.0".data, ["lang-go".data]⟩] none false false true
        ⟨exampleLangsToml, exampleCliToml, exampleBuiltinRs⟩
      = .ok (⟨exampleLangsTomlNew, exampleCliTomlNew, exampleBuiltinRs⟩, 0) by decide)
